import Mathlib

set_option maxRecDepth 100000

/-!
# Verification of the btc_node chain / UTXO / codec core

Shallow embedding of the `tp-taller-de-programacion-I` Bitcoin testnet node
(`btc_node` crate).  Bytes are modelled as `Nat` (kept `< 256` by the
operations that produce them), byte strings as `List Nat`, Rust `u32`/`u64`
arithmetic as `Nat` with explicit `% 2^w`, `i64` amounts as `Int`, and Rust
panics as `Option.none`.  External crates (`secp256k1`, `bs58`, `ripemd160`)
enter as an explicit record of functions; the repository's own code —
including its `sha256d` from `bitcoin_hashes`, reimplemented here
executably — is embedded directly.
-/

namespace BtcNode

/-! ## Byte-level primitives and little-endian codecs -/

/-- The 32-bit truncation used for all `u32` arithmetic. -/
def w32 (n : Nat) : Nat := n % 4294967296

/-- `u32::to_le_bytes` (also used for the `i32` bit pattern). -/
def u32ToLe (n : Nat) : List Nat :=
  [n % 256, n / 256 % 256, n / 65536 % 256, n / 16777216 % 256]

/-- `u32::from_le_bytes` on a 4-byte slice. -/
def leToU32 (bs : List Nat) : Nat :=
  bs.getD 0 0 + bs.getD 1 0 * 256 + bs.getD 2 0 * 65536 + bs.getD 3 0 * 16777216

/-- `u16::to_le_bytes`. -/
def u16ToLe (n : Nat) : List Nat := [n % 256, n / 256 % 256]

/-- `u16::from_le_bytes`. -/
def leToU16 (bs : List Nat) : Nat := bs.getD 0 0 + bs.getD 1 0 * 256

/-- `u64::to_le_bytes`. -/
def u64ToLe (n : Nat) : List Nat :=
  [n % 256, n / 256 % 256, n / 2 ^ 16 % 256, n / 2 ^ 24 % 256,
   n / 2 ^ 32 % 256, n / 2 ^ 40 % 256, n / 2 ^ 48 % 256, n / 2 ^ 56 % 256]

/-- `u64::from_le_bytes`. -/
def leToU64 (bs : List Nat) : Nat :=
  bs.getD 0 0 + bs.getD 1 0 * 256 + bs.getD 2 0 * 2 ^ 16 + bs.getD 3 0 * 2 ^ 24 +
  bs.getD 4 0 * 2 ^ 32 + bs.getD 5 0 * 2 ^ 40 + bs.getD 6 0 * 2 ^ 48 + bs.getD 7 0 * 2 ^ 56

/-- `i64::to_le_bytes`: the two's-complement bit pattern, little-endian. -/
def i64ToLe (v : Int) : List Nat := u64ToLe (v % (2 ^ 64 : Int)).toNat

/-- A big-endian byte list read as a natural number (the numeric value a
256-bit big-endian buffer denotes). -/
def beNat (bs : List Nat) : Nat := bs.foldl (fun acc b => acc * 256 + b) 0

/-! ## SHA-256, executable (the node's `bitcoin_hashes::sha256` /
`sha256d`), over `Nat` words reduced mod `2^32`. -/

/-- Right rotation of a 32-bit word. -/
def rotr32 (n x : Nat) : Nat := w32 ((x >>> n) ||| (x <<< (32 - n)))

/-- SHA-256 small sigma 0. -/
def ssig0 (x : Nat) : Nat := (rotr32 7 x) ^^^ (rotr32 18 x) ^^^ (x >>> 3)

/-- SHA-256 small sigma 1. -/
def ssig1 (x : Nat) : Nat := (rotr32 17 x) ^^^ (rotr32 19 x) ^^^ (x >>> 10)

/-- SHA-256 big sigma 0. -/
def bsig0 (x : Nat) : Nat := (rotr32 2 x) ^^^ (rotr32 13 x) ^^^ (rotr32 22 x)

/-- SHA-256 big sigma 1. -/
def bsig1 (x : Nat) : Nat := (rotr32 6 x) ^^^ (rotr32 11 x) ^^^ (rotr32 25 x)

/-- The 64 SHA-256 round constants. -/
def sha256K : List Nat :=
  [1116352408, 1899447441, 3049323471, 3921009573, 961987163, 1508970993,
   2453635748, 2870763221, 3624381080, 310598401, 607225278, 1426881987,
   1925078388, 2162078206, 2614888103, 3248222580, 3835390401, 4022224774,
   264347078, 604807628, 770255983, 1249150122, 1555081692, 1996064986,
   2554220882, 2821834349, 2952996808, 3210313671, 3336571891, 3584528711,
   113926993, 338241895, 666307205, 773529912, 1294757372, 1396182291,
   1695183700, 1986661051, 2177026350, 2456956037, 2730485921, 2820302411,
   3259730800, 3345764771, 3516065817, 3600352804, 4094571909, 275423344,
   430227734, 506948616, 659060556, 883997877, 958139571, 1322822218,
   1537002063, 1747873779, 1955562222, 2024104815, 2227730452, 2361852424,
   2428436474, 2756734187, 3204031479, 3329325298]

/-- The SHA-256 initial state. -/
def sha256H0 : List Nat :=
  [1779033703, 3144134277, 1013904242, 2773480762, 1359893119, 2600822924, 528734635, 1541459225]

/-- Pad a message to a whole number of 64-byte blocks (`0x80`, zeros, 64-bit
big-endian bit length). -/
def sha256Pad (msg : List Nat) : List Nat :=
  let l := msg.length
  let z := (119 - l % 64) % 64
  let bitLen := l * 8
  msg ++ [0x80] ++ List.replicate z 0 ++
    [bitLen / 2 ^ 56 % 256, bitLen / 2 ^ 48 % 256, bitLen / 2 ^ 40 % 256, bitLen / 2 ^ 32 % 256,
     bitLen / 2 ^ 24 % 256, bitLen / 2 ^ 16 % 256, bitLen / 2 ^ 8 % 256, bitLen % 256]

/-- Split into 64-byte blocks, with structural fuel so the kernel can
evaluate it (the fuel is always sufficient). -/
def toBlocksFuel : Nat → List Nat → List (List Nat)
  | 0, _ => []
  | _, [] => []
  | f + 1, bs => bs.take 64 :: toBlocksFuel f (bs.drop 64)

/-- Split into 64-byte blocks (the padded length is a multiple of 64). -/
def toBlocks (bs : List Nat) : List (List Nat) := toBlocksFuel bs.length bs

/-- The 16 big-endian 32-bit words of one block. -/
def blockWords : List Nat → List Nat
  | b3 :: b2 :: b1 :: b0 :: rest =>
      (b3 * 2 ^ 24 + b2 * 2 ^ 16 + b1 * 256 + b0) :: blockWords rest
  | _ => []

/-- Extend a 16-word window by `k` schedule words. -/
def schedExtend : Nat → List Nat → List Nat
  | 0, _ => []
  | k + 1, win =>
      let nw := w32 (win.getD 0 0 + ssig0 (win.getD 1 0) + win.getD 9 0 + ssig1 (win.getD 14 0))
      nw :: schedExtend k (win.drop 1 ++ [nw])

/-- One SHA-256 compression round; the state is the 8 words `a..h`. -/
def sha256Round (st : List Nat) (k : Nat) (wrd : Nat) : List Nat :=
  let a := st.getD 0 0
  let b := st.getD 1 0
  let c := st.getD 2 0
  let d := st.getD 3 0
  let e := st.getD 4 0
  let f := st.getD 5 0
  let g := st.getD 6 0
  let h := st.getD 7 0
  let t1 := w32 (h + bsig1 e + ((e &&& f) ^^^ ((e ^^^ 4294967295) &&& g)) + k + wrd)
  let t2 := w32 (bsig0 a + ((a &&& b) ^^^ (a &&& c) ^^^ (b &&& c)))
  [w32 (t1 + t2), a, b, c, w32 (d + t1), e, f, g]

/-- Run the 64 rounds of one block. -/
def sha256Compress (st : List Nat) (ks ws : List Nat) : List Nat :=
  match ks, ws with
  | k :: ks, wrd :: ws => sha256Compress (sha256Round st k wrd) ks ws
  | _, _ => st

/-- Process one 64-byte block into the running hash state. -/
def sha256Block (st : List Nat) (block : List Nat) : List Nat :=
  let w16 := blockWords block
  let ws := w16 ++ schedExtend 48 w16
  let st' := sha256Compress st sha256K ws
  (List.range 8).map fun i => w32 (st.getD i 0 + st'.getD i 0)

/-- A 32-bit word as 4 big-endian bytes (each `< 256` by construction). -/
def u32ToBe (n : Nat) : List Nat := [n / 2 ^ 24 % 256, n / 2 ^ 16 % 256, n / 256 % 256, n % 256]

/-- SHA-256 of a byte string: 32 digest bytes. -/
def sha256 (msg : List Nat) : List Nat :=
  ((toBlocks (sha256Pad msg)).foldl sha256Block sha256H0).flatMap u32ToBe

/-- `bitcoin_hashes::sha256d`: SHA-256 applied twice. -/
def sha256d (msg : List Nat) : List Nat := sha256 (sha256 msg)

/-- Sanity: the NIST test vector for `"abc"`. -/
theorem sha256_abc :
    sha256 [0x61, 0x62, 0x63] =
      [186, 120, 22, 191, 143, 1, 207, 234, 65, 65, 64, 222, 93, 174, 34, 35,
       176, 3, 97, 163, 150, 23, 122, 156, 180, 16, 255, 97, 242, 0, 21, 173] := by
  decide

/-! ## `message::compact_size::CompactSize` -/

/-- The four wire widths of a compact-size integer. -/
inductive CompactSize where
  | U8 (n : Nat)
  | U16 (n : Nat)
  | U32 (n : Nat)
  | U64 (n : Nat)
deriving DecidableEq

namespace CompactSize

/-- `CompactSize::read_from`: the input list is the byte stream; the returned
list is what the stream has left. -/
def readFrom : List Nat → Except String (CompactSize × List Nat)
  | [] => .error "The stream's format is incorrect"
  | b :: rest =>
    if b ≤ 252 then .ok (.U8 b, rest)
    else if b = 253 then
      match rest with
      | b0 :: b1 :: r => .ok (.U16 (leToU16 [b0, b1]), r)
      | _ => .error "The stream's format is incorrect"
    else if b = 254 then
      match rest with
      | b0 :: b1 :: b2 :: b3 :: r => .ok (.U32 (leToU32 [b0, b1, b2, b3]), r)
      | _ => .error "The stream's format is incorrect"
    else
      match rest with
      | b0 :: b1 :: b2 :: b3 :: b4 :: b5 :: b6 :: b7 :: r =>
          .ok (.U64 (leToU64 [b0, b1, b2, b3, b4, b5, b6, b7]), r)
      | _ => .error "The stream's format is incorrect"

/-- `CompactSize::to_le_bytes`. -/
def toLeBytes : CompactSize → List Nat
  | .U8 n => [n % 256]
  | .U16 n => 253 :: u16ToLe n
  | .U32 n => 254 :: u32ToLe n
  | .U64 n => 255 :: u64ToLe n

/-- `CompactSize::into_inner` (cast to `usize`). -/
def intoInner : CompactSize → Nat
  | .U8 n => n
  | .U16 n => n
  | .U32 n => n
  | .U64 n => n

/-- `CompactSize::new_from_usize`.  Note the source's strict comparisons
against `u8::max_value()` (255), `u16::max_value()` and `u32::max_value()`. -/
def newFromUsize (n : Nat) : CompactSize :=
  if n < 255 then .U8 n
  else if n < 65535 then .U16 n
  else if n < 4294967295 then .U32 n
  else .U64 n

end CompactSize

/-! ## `raw_transaction`: outpoints, inputs, outputs, raw transactions -/

/-- `raw_transaction::Outpoint`. -/
structure Outpoint where
  hash : List Nat
  index : Nat
deriving DecidableEq

/-- `Outpoint::to_bytes`. -/
def Outpoint.toBytes (o : Outpoint) : List Nat := o.hash ++ u32ToLe o.index

/-- `raw_transaction::TxIn`. -/
structure TxIn where
  previousOutput : Outpoint
  scriptBytes : CompactSize
  signatureScript : List Nat
  sequence : Nat
deriving DecidableEq

/-- `TxIn::new`. -/
def TxIn.new (previousOutput : Outpoint) (signatureScript : List Nat) : TxIn :=
  { previousOutput
    scriptBytes := CompactSize.newFromUsize signatureScript.length
    signatureScript
    sequence := 0xffffffff }

/-- `TxIn::to_bytes`. -/
def TxIn.toBytes (t : TxIn) : List Nat :=
  t.previousOutput.toBytes ++ t.scriptBytes.toLeBytes ++ t.signatureScript ++ u32ToLe t.sequence

/-- `raw_transaction::TxOut`; `value` is the `i64` satoshi amount. -/
structure TxOut where
  value : Int
  pkScriptBytes : CompactSize
  pkScript : List Nat
deriving DecidableEq

/-- `TxOut::new`. -/
def TxOut.new (value : Int) (pkScript : List Nat) : TxOut :=
  { value, pkScriptBytes := CompactSize.newFromUsize pkScript.length, pkScript }

/-- `TxOut::to_bytes`. -/
def TxOut.toBytes (t : TxOut) : List Nat :=
  i64ToLe t.value ++ t.pkScriptBytes.toLeBytes ++ t.pkScript

/-- `raw_transaction::RawTransaction`; `version` is the `i32` bit pattern. -/
structure RawTransaction where
  version : Nat
  txInCount : CompactSize
  txIn : List TxIn
  txOutCount : CompactSize
  txOut : List TxOut
  lockTime : Nat
deriving DecidableEq

/-- `RawTransaction::new`. -/
def RawTransaction.new (txin : List TxIn) (txout : List TxOut) : RawTransaction :=
  { version := 1
    txInCount := CompactSize.newFromUsize txin.length
    txIn := txin
    txOutCount := CompactSize.newFromUsize txout.length
    txOut := txout
    lockTime := 0 }

/-- The source's `for i in 0..count { bytes.extend(xs[i].to_bytes()) }`:
indexing past the end of `xs` panics (`none`). -/
def serializeCounted {α : Type} (count : Nat) (xs : List α) (f : α → List Nat) :
    Option (List Nat) :=
  if count ≤ xs.length then some (((xs.take count).map f).flatten) else none

/-- `RawTransaction::to_bytes`; `none` models the index panic when a count
field exceeds the corresponding vector length. -/
def RawTransaction.toBytes (t : RawTransaction) : Option (List Nat) := do
  let ins ← serializeCounted t.txInCount.intoInner t.txIn TxIn.toBytes
  let outs ← serializeCounted t.txOutCount.intoInner t.txOut TxOut.toBytes
  some (u32ToLe t.version ++ t.txInCount.toLeBytes ++ ins ++
        t.txOutCount.toLeBytes ++ outs ++ u32ToLe t.lockTime)

/-- `RawTransaction::get_tx_id`: `sha256d` of the serialization. -/
def RawTransaction.getTxId (t : RawTransaction) : Option (List Nat) :=
  t.toBytes.map sha256d

/-- `RawTransaction::serialize(input, pubkey_script)`: the signature-hash
preimage.  The input being verified gets the pubkey script (with a
compact-size length prefix), every other input a single `0` byte, and a
4-byte little-endian `SIGHASH_ALL` word is appended. -/
def RawTransaction.serializeForSig (t : RawTransaction) (input : Nat)
    (pubkeyScript : List Nat) : List Nat :=
  u32ToLe t.version ++ t.txInCount.toLeBytes ++
  (t.txIn.enum.map fun p =>
    p.2.previousOutput.toBytes ++
    (if p.1 = input then
      (CompactSize.newFromUsize pubkeyScript.length).toLeBytes ++ pubkeyScript
     else [0]) ++
    u32ToLe p.2.sequence).flatten ++
  t.txOutCount.toLeBytes ++ (t.txOut.map TxOut.toBytes).flatten ++
  u32ToLe t.lockTime ++ u32ToLe 1

/-! ## External crates (`secp256k1`, `bs58`, `ripemd160`)

The node calls into these crates; they are not part of the repository, so
they enter the embedding as an explicit record of functions.  Theorems
quantify over the record, so they hold for the real implementations. -/

/-- The external-crate surface used by script evaluation, signing and
address handling.  `Option` results model fallible constructors
(`from_der`, `from_slice`); the caller decides whether their failure is a
panic (`unwrap`) or an error. -/
structure CryptoExt where
  sigFromDer : List Nat → Option (List Nat)
  pubKeyFromSlice : List Nat → Option (List Nat)
  verifyEcdsa : List Nat → List Nat → List Nat → Bool
  ripemd160 : List Nat → List Nat
  base58Decode : String → Option (List Nat)
  secretKeyFromSlice : List Nat → Option (List Nat)
  derivePublicKey : List Nat → List Nat
  signEcdsaDer : List Nat → List Nat → List Nat

/-- `utils::hash160`: RIPEMD160 of SHA256. -/
def hash160 (O : CryptoExt) (bytes : List Nat) : List Nat :=
  O.ripemd160 (sha256 bytes)

/-! ## `script::PubKeyScript` and the P2PKH interpreter -/

/-- `script::PubKeyScript`. -/
inductive PubKeyScript where
  | P2PKH (hash : List Nat)
  | P2SH (hash : List Nat)
  | SCRIPT (bytes : List Nat)
  | EMPTY
deriving DecidableEq

namespace PubKeyScript

/-- `PubKeyScript::from_bytes`.  The source's slice patterns
`[DUP, HASH160, 20, .., EQUALVERIFY, CHECKSIG]` (length ≥ 5) and
`[HASH160, 20, .., EQUAL]` (length ≥ 3) are followed by fixed-range slices
`bytes[3..23]` / `bytes[2..22]`, which panic (`none`) when the script is
shorter than 23 / 22 bytes. -/
def fromBytes (bytes : List Nat) : Option PubKeyScript :=
  if bytes.length < 3 then some (.SCRIPT bytes)
  else if 5 ≤ bytes.length ∧ bytes.take 3 = [118, 169, 20] ∧
          bytes.drop (bytes.length - 2) = [136, 172] then
    if 23 ≤ bytes.length then some (.P2PKH ((bytes.drop 3).take 20)) else none
  else if bytes.take 2 = [169, 20] ∧ bytes.drop (bytes.length - 1) = [135] then
    if 22 ≤ bytes.length then some (.P2SH ((bytes.drop 2).take 20)) else none
  else some (.SCRIPT bytes)

/-- `PubKeyScript::can_be_spent_by`. -/
def canBeSpentBy (s : PubKeyScript) (hash : List Nat) : Bool :=
  match s with
  | .P2PKH a => a == hash
  | .P2SH a => a == hash
  | _ => false

/-- `PubKeyScript::to_vec`. -/
def toVec : PubKeyScript → List Nat
  | .P2PKH pk => [118, 169, 20] ++ pk ++ [136, 172]
  | .P2SH rhash => [169, 20] ++ rhash ++ [135]
  | .SCRIPT b => b
  | .EMPTY => []

end PubKeyScript

/-- Take `n` bytes off the front of the opcode stream, or `none` if fewer
remain (the source's `script.pop().unwrap()` panic inside a data push). -/
def takeBytes (n : Nat) (xs : List Nat) : Option (List Nat × List Nat) :=
  if n ≤ xs.length then some (xs.take n, xs.drop n) else none

/-- The opcode loop of `script::evaluate_script`.

The source reverses the pubkey script, appends the reversed signature
script and pops from the end of the `Vec`; popping that vector yields the
signature script bytes in order followed by the pubkey script bytes in
order, so the stream here is `signature_script ++ pubkey_script` read from
the front.  The stack is a list with its head as the top (the `Vec`'s
`last()`).  `none` models a panic; the fuel argument is always called with
`stream.length + 1`, which strictly dominates the number of iterations. -/
def evalLoop (O : CryptoExt) (pubkeyScript : List Nat) (tx : RawTransaction)
    (input : Nat) : Nat → List Nat → List (List Nat) → Option Bool
  | 0, _, _ => none
  | _ + 1, [], stack =>
    some (match stack.head? with
          | some a => a ≠ [0]
          | none => false)
  | f + 1, op :: rest, stack =>
    if 1 ≤ op ∧ op ≤ 75 then
      match takeBytes op rest with
      | none => none
      | some (v, rest') => evalLoop O pubkeyScript tx input f rest' (v :: stack)
    else if op = 118 then -- OP_DUP
      match stack with
      | [] => some false
      | a :: s => evalLoop O pubkeyScript tx input f rest (a :: a :: s)
    else if op = 169 then -- OP_HASH160
      match stack with
      | [] => some false
      | h :: s => evalLoop O pubkeyScript tx input f rest (hash160 O h :: s)
    else if op = 135 then -- OP_EQUAL (the source pushes [1] when the two
      -- operands differ and [0] when they are equal)
      match stack with
      | a :: b :: s => evalLoop O pubkeyScript tx input f rest
          ((if a ≠ b then [1] else [0]) :: s)
      | _ => some false
    else if op = 136 then -- OP_EQUALVERIFY
      match stack with
      | a :: b :: s => if a ≠ b then some false
                       else evalLoop O pubkeyScript tx input f rest s
      | _ => some false
    else if op = 172 then -- OP_CHECKSIG
      match stack with
      | pk :: signature :: _ =>
        (match signature.getLast? with
         | none => some false
         | some flag =>
           if flag ≠ 1 then some false
           else
             let m := sha256d (tx.serializeForSig input pubkeyScript)
             match O.sigFromDer signature.dropLast, O.pubKeyFromSlice pk with
             | some s, some p => some (O.verifyEcdsa m s p)
             | _, _ => none)  -- `from_der(..).unwrap()` / `from_slice(..).unwrap()`
      | _ => some false
    else if op = 170 then -- OP_HASH256
      match stack with
      | [] => some false
      | h :: s => evalLoop O pubkeyScript tx input f rest (sha256d h :: s)
    else some false

/-- `script::evaluate_script`; `tx.tx_in[input]` panics (`none`) when the
index is out of range. -/
def evaluateScript (O : CryptoExt) (pubkeyScript : List Nat)
    (tx : RawTransaction) (input : Nat) : Option Bool :=
  match tx.txIn.get? input with
  | none => none
  | some txin =>
    let stream := txin.signatureScript ++ pubkeyScript
    evalLoop O pubkeyScript tx input (stream.length + 1) stream []

/-- `PubKeyScript::evaluate`. -/
def PubKeyScript.evaluate (s : PubKeyScript) (O : CryptoExt)
    (tx : RawTransaction) (index : Nat) : Option Bool :=
  if tx.txIn.length ≤ index then some false
  else match s with
       | .P2PKH _ => evaluateScript O s.toVec tx index
       | _ => some false

/-! ## `blockchain::utxo_set` and `blockchain::txs` -/

/-- `utxo_set::Output`. -/
structure Output where
  index : Nat
  value : Int
  pkscript : PubKeyScript
deriving DecidableEq

/-- `Output::new`; `none` propagates the `PubKeyScript::from_bytes` panic. -/
def Output.new (index : Nat) (value : Int) (scriptBytes : List Nat) : Option Output :=
  (PubKeyScript.fromBytes scriptBytes).map fun pk => ⟨index, value, pk⟩

/-- `txs::Tx` (a transaction with its precomputed identity and indexed
outputs). -/
structure Tx where
  version : Nat
  txIn : List TxIn
  txOut : List Output
  lockTime : Nat
  txId : List Nat
deriving DecidableEq

/-- `Tx::get_inputs`. -/
def Tx.getInputs (t : Tx) : List (List Nat × Nat) :=
  t.txIn.map fun i => (i.previousOutput.hash, i.previousOutput.index)

/-- `Tx::from_raw_tx`. -/
def Tx.fromRawTx (tx : RawTransaction) : Option Tx := do
  let outs ← tx.txOut.enum.mapM fun p => Output.new p.1 p.2.value p.2.pkScript
  let id ← tx.getTxId
  some { version := tx.version, txIn := tx.txIn, txOut := outs,
         lockTime := tx.lockTime, txId := id }

/-- `Txs::from_raw_txs` (the `Txs` struct is its `txns` vector). -/
def Txs.fromRawTxs (rawTxs : List RawTransaction) : Option (List Tx) :=
  rawTxs.mapM Tx.fromRawTx

/-- The UTXO set's `HashMap<[u8; 32], Vec<Output>>`, as an association list
with unique keys; only lookups are observable, matching the hash map. -/
abbrev UtxoMap := List (List Nat × List Output)

/-- `HashMap::get`. -/
def mapLookup : UtxoMap → List Nat → Option (List Output)
  | [], _ => none
  | e :: rest, k => if e.1 = k then some e.2 else mapLookup rest k

/-- `HashMap::insert`: replace the binding if the key is present, add it
otherwise. -/
def mapInsert : UtxoMap → List Nat → List Output → UtxoMap
  | [], k, v => [(k, v)]
  | e :: rest, k, v => if e.1 = k then (k, v) :: rest else e :: mapInsert rest k v

/-- `HashMap::remove`. -/
def mapRemove : UtxoMap → List Nat → UtxoMap
  | [], _ => []
  | e :: rest, k => if e.1 = k then mapRemove rest k else e :: mapRemove rest k

namespace UtxoSet

/-- One input of `UtxoSet::append`'s first loop: look the txid up; if
present, remove the entry with that index; if the vector became empty,
delete the key. -/
def removeInput (m : UtxoMap) (h : List Nat) (idx : Nat) : UtxoMap :=
  match mapLookup m h with
  | none => m
  | some outs =>
    match outs.findIdx? (fun o => o.index == idx) with
    | none => m
    | some i =>
      let outs' := outs.eraseIdx i
      if outs'.isEmpty then mapRemove m h else mapInsert m h outs'

/-- `UtxoSet::append`: first every transaction's inputs are removed, then
every transaction's outputs are inserted under its identity. -/
def append (txs : List Tx) (m : UtxoMap) : UtxoMap :=
  let m1 := txs.foldl (fun acc tx =>
    tx.getInputs.foldl (fun a p => removeInput a p.1 p.2) acc) m
  txs.foldl (fun acc tx => mapInsert acc tx.txId tx.txOut) m1

/-- `UtxoSet::get`. -/
def get (m : UtxoMap) (hash : List Nat) (index : Nat) : Option Output :=
  match mapLookup m hash with
  | none => none
  | some outs => outs.find? (fun o => o.index == index)

/-- `UtxoSet::by_pkhash`; iteration order of the hash map is arbitrary, the
model fixes the association list's order. -/
def byPkhash (m : UtxoMap) (pkhash : List Nat) : List (List Nat × Output) :=
  m.flatMap fun e =>
    (e.2.filter fun o => o.pkscript.canBeSpentBy pkhash).map fun o => (e.1, o)

/-- `UtxoSet::get_balance`. -/
def getBalance (m : UtxoMap) (pkhash : List Nat) : Int :=
  m.foldl (fun acc e =>
    e.2.foldl (fun a o => if o.pkscript.canBeSpentBy pkhash then a + o.value else a) acc) 0

end UtxoSet

/-! ## `block_header::BlockHeader` and proof of work -/

/-- `block_header::BlockHeader`; `version` is the `i32` bit pattern. -/
structure BlockHeader where
  version : Nat
  prevBlockHash : List Nat
  merkleRootHash : List Nat
  timestamp : Nat
  bits : Nat
  nonce : Nat
deriving DecidableEq

/-- `BlockHeader::to_bytes` (the 80-byte wire serialization). -/
def BlockHeader.toBytes (h : BlockHeader) : List Nat :=
  u32ToLe h.version ++ h.prevBlockHash ++ h.merkleRootHash ++
  u32ToLe h.timestamp ++ u32ToLe h.bits ++ u32ToLe h.nonce

/-- `BlockHeader::hash`: the double-SHA256 identity. -/
def BlockHeader.hash (h : BlockHeader) : List Nat := sha256d h.toBytes

/-- The comparison loop of `validate_proof_of_work`: walk `hash[31 - i]`
against `target[i]`; the first differing byte decides, equality throughout
rejects.  The first list is the reversed hash, the second the target. -/
def powCompare : List Nat → List Nat → Bool
  | a :: as, b :: bs =>
    if a < b then true else if b < a then false else powCompare as bs
  | _, _ => false

/-- `BlockHeader::validate_proof_of_work`.  `exponent = bits.to_be_bytes()[0]`;
`zeros_to_right = (8 * (exponent - 3)) / 8` underflows (panics, `none`) for
`exponent < 3`, and `zeros_to_left = 32 - 3 - zeros_to_right` underflows for
`exponent > 32`.  Otherwise the 32-byte big-endian target carries the three
low mantissa bytes of `bits` shifted `exponent - 3` bytes up. -/
def BlockHeader.validateProofOfWork (h : BlockHeader) : Option Bool :=
  let exponent := h.bits / 2 ^ 24 % 256
  if exponent < 3 then none
  else if 29 < exponent - 3 then none
  else
    let ztr := exponent - 3
    let target := List.replicate (29 - ztr) 0 ++
      [h.bits / 2 ^ 16 % 256, h.bits / 256 % 256, h.bits % 256] ++
      List.replicate ztr 0
    some (powCompare h.hash.reverse target)

/-- Field extraction of `BlockHeader::read_from` on an 80-byte prefix. -/
def BlockHeader.parse (bs : List Nat) : BlockHeader :=
  { version := leToU32 (bs.take 4)
    prevBlockHash := (bs.drop 4).take 32
    merkleRootHash := (bs.drop 36).take 32
    timestamp := leToU32 ((bs.drop 68).take 4)
    bits := leToU32 ((bs.drop 72).take 4)
    nonce := leToU32 ((bs.drop 76).take 4) }

/-- `BlockHeader::read_from`: parse 80 bytes then run the proof-of-work
check; `none` is the check's panic, `Except.error` its `ProtocolError`s. -/
def BlockHeader.readFrom (bs : List Nat) : Option (Except String BlockHeader) :=
  if bs.length < 80 then some (.error "io")
  else
    let hd := BlockHeader.parse bs
    match hd.validateProofOfWork with
    | none => none
    | some true => some (.ok hd)
    | some false => some (.error "this block header failed the proof of work")

/-! ## `blockchain::block::Block` and the chain -/

/-- `block::Block`. -/
structure Block where
  version : Nat
  hash : List Nat
  merkleRootHash : List Nat
  timestamp : Nat
  bits : Nat
  nonce : Nat
  txs : Option (List Tx)
deriving DecidableEq

/-- The testnet genesis identity
(`constants::GENESIS_BLOCK_HASH_VALUE` through `utils::decode_hex`, which
stores the display hex reversed). -/
def genesisHash : List Nat :=
  [67, 73, 127, 215, 248, 38, 149, 113, 8, 244, 163, 15, 217, 206, 195, 174,
   186, 121, 151, 32, 132, 233, 14, 173, 1, 234, 51, 9, 0, 0, 0, 0]

/-- The genesis merkle root (`GENESIS_BLOCK_MERKLE_ROOT_HASH_VALUE`,
reversed likewise). -/
def genesisMerkle : List Nat :=
  [59, 163, 237, 253, 122, 123, 18, 178, 122, 199, 44, 62, 103, 118, 143, 97,
   127, 200, 27, 195, 136, 138, 81, 50, 58, 159, 184, 170, 75, 30, 94, 74]

/-- `Block::default()`: the pre-populated testnet genesis block. -/
def genesisBlock : Block :=
  { version := 1, hash := genesisHash, merkleRootHash := genesisMerkle,
    timestamp := 1231006505, bits := 0x1d00ffff, nonce := 0x18aea41a, txs := none }

/-- `Block::from_block_header`. -/
def Block.fromBlockHeader (h : BlockHeader) : Block :=
  { version := h.version, hash := h.hash, merkleRootHash := h.merkleRootHash,
    timestamp := h.timestamp, bits := h.bits, nonce := h.nonce, txs := none }

/-- `Block::to_bytes`: the 48-byte chain-file entry (no `prev_hash`). -/
def Block.toBytes48 (b : Block) : List Nat :=
  u32ToLe b.version ++ b.merkleRootHash ++ u32ToLe b.timestamp ++
  u32ToLe b.bits ++ u32ToLe b.nonce

/-- `Block::from_bytes`: rebuild the fields from a 48-byte entry and
recompute the identity with the supplied previous hash spliced in. -/
def Block.fromBytes (bytes : List Nat) (prevHash : List Nat) : Block :=
  { version := leToU32 (bytes.take 4)
    merkleRootHash := (bytes.drop 4).take 32
    timestamp := leToU32 ((bytes.drop 36).take 4)
    bits := leToU32 ((bytes.drop 40).take 4)
    nonce := leToU32 ((bytes.drop 44).take 4)
    hash := sha256d (bytes.take 4 ++ prevHash ++ bytes.drop 4)
    txs := none }

namespace Blockchain

/-- The chain: head is the tip, the genesis block sits at the back. -/
abbrev Chain := List Block

/-- `Blockchain::new()`. -/
def newChain : Chain := [genesisBlock]

/-- `Blockchain::push_block`.  `front().unwrap()` panics (`none`) on an
empty chain — unreachable through the public constructors.  When the tip
is the parent the block is appended; in every other case the 100-block
scan only logs (duplicate or fork) and the chain is returned unchanged,
always `Ok`. -/
def pushBlock (block : Block) (prevHash : List Nat) (chain : Chain) : Option Chain :=
  match chain with
  | [] => none
  | tip :: rest =>
    if tip.hash = prevHash then some (block :: tip :: rest)
    else some (tip :: rest)

/-- `Blockchain::push`. -/
def push (h : BlockHeader) (chain : Chain) : Option Chain :=
  pushBlock (Block.fromBlockHeader h) h.prevBlockHash chain

/-- `Blockchain::save_to_file`: one 48-byte entry per block, skipping the
genesis block, oldest first. -/
def saveToFile (chain : Chain) : List Nat :=
  ((chain.reverse.drop 1).map Block.toBytes48).flatten

/-- The read loop of `Blockchain::read_from_file`: consume 48-byte chunks
while a full chunk is available, chaining `prev_hash` through the
reconstructed identities.  Fuel is structural and always sufficient. -/
def readLoop : Nat → List Nat → Chain → List Nat → Option Chain
  | 0, _, chain, _ => some chain
  | f + 1, bytes, chain, lastHash =>
    if bytes.length < 48 then some chain
    else
      let block := Block.fromBytes (bytes.take 48) lastHash
      match pushBlock block lastHash chain with
      | none => none
      | some chain' => readLoop f (bytes.drop 48) chain' block.hash

/-- `Blockchain::read_from_file` on the file's byte content. -/
def readFromFile (bytes : List Nat) : Option Chain :=
  readLoop (bytes.length + 1) bytes newChain genesisHash

/-- The input-checking loop of `Blockchain::is_valid_tx`: each input must
be found in the UTXO set and its script must evaluate; the spendable sum
accumulates.  `none` propagates a script-evaluation panic. -/
def checkInputs (O : CryptoExt) (utxo : UtxoMap) (tx : RawTransaction) :
    List (Nat × TxIn) → Int → Option (Bool × Int)
  | [], acc => some (true, acc)
  | (i, txin) :: rest, acc =>
    match UtxoSet.get utxo txin.previousOutput.hash txin.previousOutput.index with
    | none => some (false, acc)
    | some output =>
      match output.pkscript.evaluate O tx i with
      | none => none
      | some false => some (false, acc)
      | some true => checkInputs O utxo tx rest (acc + output.value)

/-- `Blockchain::is_valid_tx` (the chain only contributes its UTXO set). -/
def isValidTx (O : CryptoExt) (utxo : UtxoMap) (tx : RawTransaction) : Option Bool :=
  if tx.txInCount.intoInner = 0 then some false
  else
    match checkInputs O utxo tx tx.txIn.enum 0 with
    | none => none
    | some (false, _) => some false
    | some (true, spendable) =>
      let spent := tx.txOut.foldl (fun a o => a + o.value) 0
      some (spent ≤ spendable)

end Blockchain

/-! ## `merkle_tree` -/

/-- One level of the merkle recursion: `txns.chunks(2)`, hashing each
chunk's concatenation and duplicating a lone last element.  `chunks(2)`
never yields an empty slice, so the source's early `return [0u8; 32]` for
that case is dead code and has no counterpart here. -/
def merklePairs : List (List Nat) → List (List Nat)
  | [] => []
  | [a] => [sha256d (a ++ a)]
  | a :: b :: rest => sha256d (a ++ b) :: merklePairs rest

/-- `_merkle_tree_root` with fuel: the source recurses on the reduced list
until its length is 1.  On the empty list every level is again empty, the
recursion never terminates, and no fuel is ever enough (`none`). -/
def merkleAux : Nat → List (List Nat) → Option (List Nat)
  | 0, _ => none
  | f + 1, txns =>
    let rs := merklePairs txns
    if rs.length = 1 then some (rs.headD []) else merkleAux f rs

/-- `merkle_tree_root` with fuel. -/
def merkleTreeRoot (fuel : Nat) (txns : List (List Nat)) : Option (List Nat) :=
  if txns.length = 1 then some (txns.headD []) else merkleAux fuel txns

/-! ## `utils` / `bitcoin_node` wallet-side functions -/

/-- `utils::wif_to_private_key`: base58-decode (panicking on failure) and
slice away the version byte and the trailing five bytes; the slice panics
(`none`) when fewer than six bytes were decoded. -/
def wifToPrivateKey (O : CryptoExt) (wif : String) : Option (List Nat) := do
  let decoded ← O.base58Decode wif
  if 6 ≤ decoded.length then some ((decoded.drop 1).take (decoded.length - 6))
  else none

/-- `utils::wif_to_pkhash`: derive the compressed public key from the WIF's
secret and hash160 it.  A bad secret is a `ProtocolError` (`Except.error`),
a bad base58 string a panic (`none`). -/
def wifToPkhash (O : CryptoExt) (wif : String) : Option (Except String (List Nat)) := do
  let priv ← wifToPrivateKey O wif
  match O.secretKeyFromSlice priv with
  | none => some (.error "Converting the wif to a private key")
  | some sk => some (.ok (hash160 O (O.derivePublicKey sk)))

/-- `PubKeyScript::from_address`: base58-decode, check the 4-byte
double-SHA256 checksum, then dispatch on the version byte.  The slices
panic (`none`) for fewer than 4 decoded bytes (checksum split) or fewer
than 21 (payload). -/
def PubKeyScript.fromAddress (O : CryptoExt) (address : String) :
    Option (Except String PubKeyScript) :=
  match O.base58Decode address with
  | none => some (.error "Error parsing base 58")
  | some d =>
    if d.length < 4 then none
    else
      let checksum := d.drop (d.length - 4)
      let check := (sha256d (d.take (d.length - 4))).take 4
      if check ≠ checksum then some (.error "Invalid address checksum")
      else if d.length < 21 then none
      else if d.getD 0 0 = 0x6f then some (.ok (.P2PKH ((d.drop 1).take 20)))
      else if d.getD 0 0 = 0xc4 then some (.ok (.P2SH ((d.drop 1).take 20)))
      else some (.ok (.SCRIPT ((d.drop 1).take 20)))

/-- `RawTransaction::create_transaction`: build one empty-script input per
chosen outpoint, then fill each input's signature script with
`{len_sig+1, DER_sig, SIGHASH_ALL, len_pub, compressed_pub}`.  The
signature-hash preimage writes a literal `0` byte for every input other
than the one being signed, so the later in-place script mutations do not
feed back into earlier preimages. -/
def createRawTransaction (O : CryptoExt) (outToSpend : List (List Nat × Output))
    (txOut : List TxOut) (wif : String) : Option RawTransaction := do
  let txIn := outToSpend.map fun p => TxIn.new ⟨p.1, p.2.index⟩ []
  let base : RawTransaction :=
    { version := 1
      txInCount := CompactSize.newFromUsize txIn.length
      txIn
      txOutCount := CompactSize.newFromUsize txOut.length
      txOut
      lockTime := 0 }
  let priv ← wifToPrivateKey O wif
  let sk ← O.secretKeyFromSlice priv
  let pk := O.derivePublicKey sk
  let pubLen := (CompactSize.newFromUsize pk.length).toLeBytes
  let signedTxIn := outToSpend.enum.map fun p =>
    let der := O.signEcdsaDer (sha256d (base.serializeForSig p.1 p.2.2.pkscript.toVec)) sk
    let script := (CompactSize.newFromUsize (der.length + 1)).toLeBytes ++
      der ++ [1] ++ pubLen ++ pk
    { previousOutput := ⟨p.2.1, p.2.2.index⟩
      scriptBytes := CompactSize.newFromUsize script.length
      signatureScript := script
      sequence := 0xffffffff : TxIn }
  some { base with txIn := signedTxIn }

/-- A stable descending insertion into a value-sorted selection list. -/
def insertDescByValue (x : List Nat × Output) :
    List (List Nat × Output) → List (List Nat × Output)
  | [] => [x]
  | y :: ys => if y.2.value < x.2.value then x :: y :: ys else y :: insertDescByValue x ys

/-- The `sort_by(|a, b| b.1.value.partial_cmp(&a.1.value))` of
`get_outs_to_spend`: sort by descending output value. -/
def sortDescByValue (l : List (List Nat × Output)) : List (List Nat × Output) :=
  l.foldr insertDescByValue []

/-- The accumulation loop of `get_outs_to_spend`: take outputs in order,
stopping as soon as the running sum reaches `amount`. -/
def accumOuts (amount : Int) :
    List (List Nat × Output) → Int → List (List Nat × Output) →
    List (List Nat × Output) × Int
  | [], sum, acc => (acc.reverse, sum)
  | o :: rest, sum, acc =>
    let sum' := sum + o.2.value
    if amount ≤ sum' then ((o :: acc).reverse, sum')
    else accumOuts amount rest sum' (o :: acc)

/-- `Node::get_outs_to_spend`. -/
def getOutsToSpend (utxo : UtxoMap) (pkhash : List Nat) (amount : Int) :
    Except String (List (List Nat × Output) × Int) :=
  let sorted := sortDescByValue (UtxoSet.byPkhash utxo pkhash)
  let (sel, sum) := accumOuts amount sorted 0 []
  if sum < amount then .error "Insufficient balance" else .ok (sel, sum)

/-- `Node::create_transaction`: resolve the payer, select UTXOs, build the
payee output (plus change when the selection overshoots), sign, validate
against the chain snapshot. -/
def createTransactionNode (O : CryptoExt) (utxo : UtxoMap)
    (payerWif payeeAddress : String) (amount fee : Int) :
    Option (Except String RawTransaction) := do
  match wifToPkhash O payerWif with
  | none => none
  | some (.error e) => some (.error e)
  | some (.ok pkhash) =>
    match getOutsToSpend utxo pkhash (amount + fee) with
    | .error e => some (.error e)
    | .ok (outsToSpend, sum) =>
      match PubKeyScript.fromAddress O payeeAddress with
      | none => none
      | some (.error e) => some (.error e)
      | some (.ok payeeScript) =>
        let outputs := [TxOut.new amount payeeScript.toVec] ++
          (if amount + fee < sum then
            [TxOut.new (sum - amount - fee) (PubKeyScript.P2PKH pkhash).toVec]
           else [])
        match createRawTransaction O outsToSpend outputs payerWif with
        | none => none
        | some tx =>
          match Blockchain.isValidTx O utxo tx with
          | none => none
          | some false => some (.error "Transaction is not valid")
          | some true => some (.ok tx)

/-! ## Spec-side definitions (written from the claims' words, for
refinement comparisons) -/

/-- The claims' one-transaction-at-a-time UTXO update: for each transaction
in block order, first remove every input's referenced entry (deleting
emptied keys), then insert that transaction's outputs under its identity. -/
def specSeqAppend (txs : List Tx) (m : UtxoMap) : UtxoMap :=
  txs.foldl (fun acc tx =>
    mapInsert (tx.getInputs.foldl (fun a p => UtxoSet.removeInput a p.1 p.2) acc)
      tx.txId tx.txOut) m

/-- The claims' validity conditions for a raw transaction: at least one
input, every referenced outpoint live, every input's script accepted by
the interpreter, and output sum at most spent sum. -/
def specValidTx (O : CryptoExt) (utxo : UtxoMap) (tx : RawTransaction) : Prop :=
  tx.txIn ≠ [] ∧
  (∀ p ∈ tx.txIn.enum,
    ∃ out, UtxoSet.get utxo p.2.previousOutput.hash p.2.previousOutput.index = some out ∧
      out.pkscript.evaluate O tx p.1 = some true) ∧
  tx.txOut.foldl (fun a o => a + o.value) 0 ≤
    tx.txIn.foldl (fun a txin =>
      a + (((UtxoSet.get utxo txin.previousOutput.hash txin.previousOutput.index).map
              Output.value).getD 0)) 0

/-- The claim's proof-of-work target: the mantissa masked to 23 bits
(`bits & 0x007FFFFF`) placed `exponent - 3` bytes up. -/
def specTargetNat (bits : Nat) : Nat :=
  bits % 2 ^ 23 * 256 ^ (bits / 2 ^ 24 - 3)

/-! ## Concrete inputs shared by counterexamples and witnesses -/

/-- An external-crate record whose fallible constructors always fail; the
concrete executions below never reach them. -/
def trivOracle : CryptoExt :=
  { sigFromDer := fun _ => none
    pubKeyFromSlice := fun _ => none
    verifyEcdsa := fun _ _ _ => false
    ripemd160 := fun _ => List.replicate 20 7
    base58Decode := fun s => if s = "WIF" then some (List.replicate 8 1) else none
    secretKeyFromSlice := fun l => some l
    derivePublicKey := fun _ => [2, 2]
    signEcdsaDer := fun _ _ => [] }

/-- A header whose parent is the unknown hash `[0x01; 32]` (spec §8
scenario 3). -/
def demoHeader : BlockHeader :=
  { version := 1, prevBlockHash := List.replicate 32 1,
    merkleRootHash := List.replicate 32 0, timestamp := 1234567890,
    bits := 0x1d00ffff, nonce := 0xabcdef }

/-- A header with exponent 32 and the mantissa's top bit set
(`bits = 0x20FF0000`); its identity's most significant byte is `0xD3`. -/
def c3Header : BlockHeader :=
  { version := 1, prevBlockHash := List.replicate 32 0,
    merkleRootHash := List.replicate 32 0, timestamp := 0,
    bits := 0x20FF0000, nonce := 3 }

/-- A coinbase-like transaction: no inputs, one 10-satoshi output with an
empty script. -/
def c1RawTx1 : RawTransaction := RawTransaction.new [] [TxOut.new 10 []]

/-- A transaction spending `c1RawTx1`'s output 0 inside the same block. -/
def c1RawTx2 : RawTransaction :=
  RawTransaction.new [TxIn.new ⟨c1RawTx1.getTxId.getD [], 0⟩ []] [TxOut.new 7 []]

/-- The two-transaction block of the C1 counterexample, as `Txs`. -/
def c1Txs : List Tx := (Txs.fromRawTxs [c1RawTx1, c1RawTx2]).getD []

/-- A 32-byte key for synthetic UTXO entries. -/
def cexKey : List Nat := List.replicate 32 3

/-- A 20-byte pkhash for synthetic P2PKH outputs. -/
def k20 : List Nat := List.replicate 20 9

/-- A UTXO set holding one 5-satoshi P2PKH output at `(cexKey, 0)`. -/
def cexUtxo : UtxoMap := [(cexKey, [⟨0, 5, .P2PKH k20⟩])]

/-- A transaction spending `(cexKey, 0)` into a single output of value
`-5`.  Its signature script `[26, 0]` is one data push that swallows the
byte `0` and the whole 25-byte P2PKH pubkey script, leaving a non-`[0]`
stack top, so the interpreter accepts it without reaching `OP_CHECKSIG`. -/
def cexNegTx : RawTransaction :=
  { version := 1, txInCount := .U8 1,
    txIn := [TxIn.new ⟨cexKey, 0⟩ [26, 0]],
    txOutCount := .U8 1, txOut := [TxOut.new (-5) []], lockTime := 0 }

/-- A transaction whose signature script is the single data-push opcode
`0x4B` (75), which promises 75 bytes while only the 25-byte pubkey script
follows in the opcode stream. -/
def c9Tx : RawTransaction :=
  { version := 1, txInCount := .U8 1,
    txIn := [TxIn.new ⟨cexKey, 0⟩ [75]],
    txOutCount := .U8 0, txOut := [], lockTime := 0 }

/-- A well-formed header extending the genesis block. -/
def hdrA : BlockHeader :=
  { version := 1, prevBlockHash := genesisHash,
    merkleRootHash := List.replicate 32 5, timestamp := 77,
    bits := 0x1d00ffff, nonce := 42 }

/-- The genesis chain extended by `hdrA`. -/
def chainA : Blockchain.Chain :=
  (Blockchain.push hdrA Blockchain.newChain).getD Blockchain.newChain

/-! ## C5: push-header -/

/-- C5: `Blockchain::push` always returns `Ok`; it appends exactly when the
header's `prev_hash` is the tip identity and otherwise (duplicate, fork or
unknown ancestor) leaves the chain unchanged; in particular pushing a
header with `prev_hash = [0x01; 32]` onto the fresh chain leaves the
genesis chain intact. -/
theorem push_appends_iff_tip_parent :
    ∀ (h : BlockHeader) (tip : Block) (rest : List Block),
      Blockchain.push h (tip :: rest) =
        some (if tip.hash = h.prevBlockHash
              then Block.fromBlockHeader h :: tip :: rest
              else tip :: rest) ∧
      Blockchain.push demoHeader Blockchain.newChain = some Blockchain.newChain := by
  intro h tip rest
  constructor
  · by_cases hp : tip.hash = h.prevBlockHash <;>
      simp [Blockchain.push, Blockchain.pushBlock, hp]
  · decide

/-! ## C4: merkle root -/

/-- C4: the merkle recursion returns the lone hash for singletons and
reduces a list of length ≥ 2 to its pairwise double-SHA256 level, but on
the empty list it recurses on empty levels forever — no fuel is enough —
instead of returning the zero hash. -/
theorem merkle_root_empty_diverges :
    ∀ (fuel : Nat) (h : List Nat) (l : List (List Nat)),
      merkleTreeRoot fuel [] = none ∧
      merkleTreeRoot fuel [h] = some h ∧
      (2 ≤ l.length → merkleTreeRoot (fuel + 1) l = merkleTreeRoot fuel (merklePairs l)) := by
  have hempty : ∀ fuel : Nat, merkleAux fuel [] = none := by
    intro fuel
    induction fuel with
    | zero => rfl
    | succ f ih => simpa [merkleAux, merklePairs] using ih
  intro fuel h l
  refine ⟨?_, rfl, ?_⟩
  · simpa [merkleTreeRoot] using hempty fuel
  · intro hl
    match l, hl with
    | a :: b :: rest, _ =>
      simp only [merkleTreeRoot, merkleAux, List.length_cons]
      have h2 : ¬ (rest.length + 1 + 1 = 1) := by omega
      rw [if_neg h2]

/-- C4 witness: concrete instances of the three conjuncts. -/
theorem merkle_root_empty_diverges_witness :
    merkleTreeRoot 3 [] = none ∧
    merkleTreeRoot 3 [[9]] = some [9] ∧
    merkleTreeRoot 4 [[1], [2]] = merkleTreeRoot 3 (merklePairs [[1], [2]]) :=
  ⟨(merkle_root_empty_diverges 3 [9] [[1], [2]]).1,
   (merkle_root_empty_diverges 3 [9] [[1], [2]]).2.1,
   (merkle_root_empty_diverges 3 [9] [[1], [2]]).2.2 (by decide)⟩

/-! ## C9: the interpreter is not total -/

/-- C9: a transaction whose signature script is a data-push opcode claiming
more bytes than the opcode stream holds drives `evaluate_script` — and its
caller `evaluate`, the validation path — into `script.pop().unwrap()` on an
exhausted stream: a panic, for every implementation of the external
crypto crate. -/
theorem evaluate_script_panics_on_overlong_push :
    ∀ O : CryptoExt,
      evaluateScript O (PubKeyScript.P2PKH k20).toVec c9Tx 0 = none ∧
      (PubKeyScript.P2PKH k20).evaluate O c9Tx 0 = none := by
  intro O
  constructor <;> rfl

/-! ## Little-endian round trips -/

/-- Reading back a 16-bit little-endian encoding. -/
theorem leToU16_u16ToLe {n : Nat} (h : n < 2 ^ 16) : leToU16 (u16ToLe n) = n := by
  simp only [leToU16, u16ToLe, List.getD_cons_zero, List.getD_cons_succ]
  omega

/-- Reading back a 32-bit little-endian encoding. -/
theorem leToU32_u32ToLe {n : Nat} (h : n < 2 ^ 32) : leToU32 (u32ToLe n) = n := by
  simp only [leToU32, u32ToLe, List.getD_cons_zero, List.getD_cons_succ]
  omega

/-- Reading back a 64-bit little-endian encoding. -/
theorem leToU64_u64ToLe {n : Nat} (h : n < 2 ^ 64) : leToU64 (u64ToLe n) = n := by
  simp only [leToU64, u64ToLe, List.getD_cons_zero, List.getD_cons_succ]
  omega

/-! ## C6: compact-size encoding -/

/-- C6: encoding then decoding recovers every `u64` value except 253 and
254: `new_from_usize` compares with `< 255`, so 253 and 254 are stored as
`U8` and serialize to the bare marker bytes `0xFD`/`0xFE`, which the
decoder reads as multi-byte prefixes and rejects.  `U16(123)` serializes
to `[253, 0x7B, 0x00]` as the claim states. -/
theorem compact_size_roundtrip_except_253_254 :
    ∀ n : Nat, n < 2 ^ 64 → n ≠ 253 → n ≠ 254 →
      (CompactSize.readFrom (CompactSize.newFromUsize n).toLeBytes =
         .ok (CompactSize.newFromUsize n, []) ∧
       (CompactSize.newFromUsize n).intoInner = n) ∧
      CompactSize.readFrom (CompactSize.newFromUsize 253).toLeBytes =
        .error "The stream's format is incorrect" ∧
      CompactSize.readFrom (CompactSize.newFromUsize 254).toLeBytes =
        .error "The stream's format is incorrect" ∧
      (CompactSize.U16 123).toLeBytes = [253, 0x7B, 0x00] := by
  intro n h64 h253 h254
  refine ⟨⟨?_, ?_⟩, by rfl, by rfl, by rfl⟩
  · by_cases h1 : n < 255
    · have hmod : n % 256 = n := Nat.mod_eq_of_lt (by omega)
      have hle : n ≤ 252 := by omega
      simp [CompactSize.newFromUsize, CompactSize.toLeBytes, CompactSize.readFrom,
            h1, hmod, hle]
    · by_cases h2 : n < 65535
      · have hrt : leToU16 [n % 256, n / 256 % 256] = n := by
          simpa [u16ToLe] using leToU16_u16ToLe (show n < 2 ^ 16 by omega)
        simp [CompactSize.newFromUsize, CompactSize.toLeBytes, CompactSize.readFrom,
              h1, h2, u16ToLe, hrt]
      · by_cases h3 : n < 4294967295
        · have hrt : leToU32 [n % 256, n / 256 % 256, n / 65536 % 256, n / 16777216 % 256] = n := by
            simpa [u32ToLe] using leToU32_u32ToLe (show n < 2 ^ 32 by omega)
          simp [CompactSize.newFromUsize, CompactSize.toLeBytes, CompactSize.readFrom,
                h1, h2, h3, u32ToLe, hrt]
        · simp [CompactSize.newFromUsize, CompactSize.toLeBytes, CompactSize.readFrom,
                h1, h2, h3, u64ToLe]
          simp only [leToU64, List.getD_cons_zero, List.getD_cons_succ]
          omega
  · by_cases h1 : n < 255 <;> by_cases h2 : n < 65535 <;> by_cases h3 : n < 4294967295 <;>
      simp [CompactSize.newFromUsize, CompactSize.intoInner, h1, h2, h3]

/-- C6 witness: the round trip at `n = 5`, together with the concrete
failing encodings. -/
theorem compact_size_roundtrip_witness :
    (CompactSize.readFrom (CompactSize.newFromUsize 5).toLeBytes =
       .ok (CompactSize.newFromUsize 5, []) ∧
     (CompactSize.newFromUsize 5).intoInner = 5) ∧
    CompactSize.readFrom (CompactSize.newFromUsize 253).toLeBytes =
      .error "The stream's format is incorrect" ∧
    CompactSize.readFrom (CompactSize.newFromUsize 254).toLeBytes =
      .error "The stream's format is incorrect" ∧
    (CompactSize.U16 123).toLeBytes = [253, 0x7B, 0x00] :=
  compact_size_roundtrip_except_253_254 5 (by decide) (by decide) (by decide)

/-! ## C2: transaction validity -/

/-- The spendable value summed over enumerated inputs (absent outpoints
count 0; under condition (ii) none is absent). -/
def spentSumOver (utxo : UtxoMap) (ins : List (Nat × TxIn)) : Int :=
  ins.foldl (fun a p =>
    a + (((UtxoSet.get utxo p.2.previousOutput.hash p.2.previousOutput.index).map
            Output.value).getD 0)) 0

/-- Shifting the accumulator out of an additive fold. -/
theorem foldl_add_shift {α : Type} (g : α → Int) :
    ∀ (l : List α) (a : Int),
      l.foldl (fun acc x => acc + g x) a = a + l.foldl (fun acc x => acc + g x) 0 := by
  intro l
  induction l with
  | nil => intro a; simp
  | cons x xs ih =>
    intro a
    simp only [List.foldl_cons]
    rw [ih (a + g x), ih (0 + g x)]
    ring

/-- The input loop returns `(true, s)` exactly when every input's outpoint
is live with an accepted script, and then `s` is the accumulator plus the
spendable sum. -/
theorem checkInputs_some_true (O : CryptoExt) (utxo : UtxoMap) (tx : RawTransaction) :
    ∀ (ins : List (Nat × TxIn)) (acc s : Int),
      Blockchain.checkInputs O utxo tx ins acc = some (true, s) ↔
        ((∀ p ∈ ins,
            ∃ out, UtxoSet.get utxo p.2.previousOutput.hash p.2.previousOutput.index =
                some out ∧ out.pkscript.evaluate O tx p.1 = some true) ∧
         s = acc + spentSumOver utxo ins) := by
  intro ins
  induction ins with
  | nil =>
    intro acc s
    simp [Blockchain.checkInputs, spentSumOver, eq_comm]
  | cons p rest ih =>
    intro acc s
    obtain ⟨i, txin⟩ := p
    have hsum : spentSumOver utxo ((i, txin) :: rest) =
        (((UtxoSet.get utxo txin.previousOutput.hash txin.previousOutput.index).map
            Output.value).getD 0) + spentSumOver utxo rest := by
      simp only [spentSumOver, List.foldl_cons]
      rw [foldl_add_shift]
      ring_nf
    cases hget : UtxoSet.get utxo txin.previousOutput.hash txin.previousOutput.index with
    | none =>
      simp only [Blockchain.checkInputs, hget]
      constructor
      · intro h; exact absurd h (by simp)
      · rintro ⟨hall, -⟩
        obtain ⟨out, hout, -⟩ := hall (i, txin) (List.mem_cons_self _ _)
        simp [hget] at hout
    | some out =>
      cases heval : out.pkscript.evaluate O tx i with
      | none =>
        simp only [Blockchain.checkInputs, hget, heval]
        constructor
        · intro h; exact absurd h (by simp)
        · rintro ⟨hall, -⟩
          obtain ⟨out', hout', heval'⟩ := hall (i, txin) (List.mem_cons_self _ _)
          rw [hget] at hout'
          cases hout'
          rw [heval] at heval'
          cases heval'
      | some b =>
        cases b with
        | false =>
          simp only [Blockchain.checkInputs, hget, heval]
          constructor
          · intro h; exact absurd h (by simp)
          · rintro ⟨hall, -⟩
            obtain ⟨out', hout', heval'⟩ := hall (i, txin) (List.mem_cons_self _ _)
            rw [hget] at hout'
            cases hout'
            rw [heval] at heval'
            cases heval'
        | true =>
          simp only [Blockchain.checkInputs, hget, heval]
          rw [ih (acc + out.value) s]
          constructor
          · rintro ⟨hall, hs⟩
            refine ⟨?_, ?_⟩
            · intro q hq
              rcases List.mem_cons.mp hq with hq | hq
              · subst hq; exact ⟨out, hget, heval⟩
              · exact hall q hq
            · rw [hs, hsum, hget]
              simp
              ring
          · rintro ⟨hall, hs⟩
            refine ⟨fun q hq => hall q (List.mem_cons_of_mem _ hq), ?_⟩
            rw [hs, hsum, hget]
            simp
            ring

/-- C2 (amended): for transactions whose recorded input count matches
their input list, `is_valid_tx` accepts exactly when the count is nonzero,
every input's `(txid, index)` is live in the UTXO set, the P2PKH
interpreter accepts every input, and the output sum is at most the
spendable sum.  (No negativity check is performed on values.) -/
theorem is_valid_tx_iff_spec :
    ∀ (O : CryptoExt) (utxo : UtxoMap) (tx : RawTransaction),
      tx.txInCount.intoInner = tx.txIn.length →
      (Blockchain.isValidTx O utxo tx = some true ↔ specValidTx O utxo tx) := by
  intro O utxo tx hcount
  have hspent : spentSumOver utxo tx.txIn.enum =
      tx.txIn.foldl (fun a txin =>
        a + (((UtxoSet.get utxo txin.previousOutput.hash txin.previousOutput.index).map
                Output.value).getD 0)) 0 := by
    simp only [spentSumOver]
    conv_rhs => rw [← List.enum_map_snd tx.txIn]
    rw [List.foldl_map]
  by_cases hz : tx.txInCount.intoInner = 0
  · have hnil : tx.txIn = [] := by
      have := hcount.symm.trans hz
      exact List.length_eq_zero.mp this
    simp [Blockchain.isValidTx, hz, specValidTx, hnil]
  · have hne : tx.txIn ≠ [] := by
      intro h
      exact hz (by rw [hcount, h]; rfl)
    cases hc : Blockchain.checkInputs O utxo tx tx.txIn.enum 0 with
    | none =>
      simp only [Blockchain.isValidTx, hz, if_false, hc]
      constructor
      · intro h; exact absurd h (by simp)
      · rintro ⟨-, hall, -⟩
        have := (checkInputs_some_true O utxo tx tx.txIn.enum 0
          (0 + spentSumOver utxo tx.txIn.enum)).mpr ⟨hall, rfl⟩
        rw [hc] at this
        cases this
    | some pr =>
      obtain ⟨b, v⟩ := pr
      cases b with
      | false =>
        simp only [Blockchain.isValidTx, hz, if_false, hc]
        constructor
        · intro h; exact absurd h (by simp)
        · rintro ⟨-, hall, -⟩
          have := (checkInputs_some_true O utxo tx tx.txIn.enum 0
            (0 + spentSumOver utxo tx.txIn.enum)).mpr ⟨hall, rfl⟩
          rw [hc] at this
          cases this
      | true =>
        obtain ⟨hall, hv⟩ := (checkInputs_some_true O utxo tx tx.txIn.enum 0 v).mp hc
        simp only [Blockchain.isValidTx, hz, if_false, hc]
        constructor
        · intro h
          have hle : tx.txOut.foldl (fun a o => a + o.value) 0 ≤ v := by
            simpa using h
          exact ⟨hne, hall, by rw [← hspent, ← zero_add (spentSumOver utxo tx.txIn.enum), ← hv]; exact hle⟩
        · rintro ⟨-, -, hle⟩
          have : tx.txOut.foldl (fun a o => a + o.value) 0 ≤ v := by
            rw [hv, hspent]
            simpa using hle
          simpa using this

/-- C2 witness: the equivalence instantiated at a coherent concrete
transaction. -/
theorem is_valid_tx_iff_spec_witness :
    Blockchain.isValidTx trivOracle [] cexNegTx = some true ↔
      specValidTx trivOracle [] cexNegTx :=
  is_valid_tx_iff_spec trivOracle [] cexNegTx (by decide)

/-- C2 counterexample: a transaction whose only output has value `-5` is
accepted by `is_valid_tx` (its single input is live and its `[26, 0]`
signature script is accepted by the interpreter without touching the
crypto crate), contradicting the claim that a transaction with a negative
output value is never accepted. -/
theorem is_valid_tx_accepts_negative_output :
    Blockchain.isValidTx trivOracle cexUtxo cexNegTx = some true ∧
      (cexNegTx.txOut.map TxOut.value).any (fun v => decide (v < 0)) = true := by
  constructor <;> decide

/-! ## C3: proof-of-work target comparison -/

/-- Fold form of `beNat` with an explicit accumulator. -/
theorem beNat_foldl_acc :
    ∀ (l : List Nat) (a : Nat),
      l.foldl (fun x b => x * 256 + b) a =
        a * 256 ^ l.length + l.foldl (fun x b => x * 256 + b) 0 := by
  intro l
  induction l with
  | nil => intro a; simp
  | cons b bs ih =>
    intro a
    simp only [List.foldl_cons, List.length_cons]
    rw [ih (a * 256 + b), ih (0 * 256 + b)]
    ring

/-- `beNat` over a concatenation. -/
theorem beNat_append (l1 l2 : List Nat) :
    beNat (l1 ++ l2) = beNat l1 * 256 ^ l2.length + beNat l2 := by
  simp only [beNat, List.foldl_append]
  rw [beNat_foldl_acc]

/-- `beNat` of a head byte. -/
theorem beNat_cons (b : Nat) (l : List Nat) :
    beNat (b :: l) = b * 256 ^ l.length + beNat l := by
  rw [show (b :: l) = [b] ++ l from rfl, beNat_append]
  simp [beNat]

/-- All-zero buffers denote 0. -/
theorem beNat_replicate_zero (k : Nat) : beNat (List.replicate k 0) = 0 := by
  induction k with
  | zero => rfl
  | succ n ih => simpa [List.replicate_succ, beNat_cons] using ih

/-- A big-endian buffer of genuine bytes is bounded by `256 ^ length`. -/
theorem beNat_lt (l : List Nat) (h : ∀ b ∈ l, b < 256) :
    beNat l < 256 ^ l.length := by
  induction l with
  | nil => simp [beNat]
  | cons b bs ih =>
    rw [beNat_cons]
    have hb : b < 256 := h b (List.mem_cons_self _ _)
    have hbs := ih fun x hx => h x (List.mem_cons_of_mem _ hx)
    have : b * 256 ^ bs.length + beNat bs < (b + 1) * 256 ^ bs.length := by
      nlinarith
    calc b * 256 ^ bs.length + beNat bs
        < (b + 1) * 256 ^ bs.length := this
      _ ≤ 256 * 256 ^ bs.length := by
            exact Nat.mul_le_mul_right _ (by omega)
      _ = 256 ^ (b :: bs).length := by
            simp [List.length_cons, pow_succ]
            ring

/-- The byte-by-byte strict comparison agrees with the numeric one on
equal-length byte buffers. -/
theorem powCompare_iff :
    ∀ (xs ys : List Nat), xs.length = ys.length →
      (∀ b ∈ xs, b < 256) → (∀ b ∈ ys, b < 256) →
      (powCompare xs ys = true ↔ beNat xs < beNat ys) := by
  intro xs
  induction xs with
  | nil =>
    intro ys hlen _ _
    have : ys = [] := List.length_eq_zero.mp hlen.symm
    subst this
    simp [powCompare, beNat]
  | cons a as ih =>
    intro ys hlen hxs hys
    cases ys with
    | nil => simp at hlen
    | cons b bs =>
      have hlen' : as.length = bs.length := by simpa using hlen
      have hb : b < 256 := hys b (List.mem_cons_self _ _)
      have ha : a < 256 := hxs a (List.mem_cons_self _ _)
      have hxs' : ∀ x ∈ as, x < 256 := fun x hx => hxs x (List.mem_cons_of_mem _ hx)
      have hys' : ∀ x ∈ bs, x < 256 := fun x hx => hys x (List.mem_cons_of_mem _ hx)
      have hxlt := beNat_lt as hxs'
      have hylt := beNat_lt bs hys'
      rw [beNat_cons, beNat_cons, powCompare]
      by_cases h1 : a < b
      · rw [if_pos h1]
        refine iff_of_true rfl ?_
        calc a * 256 ^ as.length + beNat as
            < (a + 1) * 256 ^ as.length := by nlinarith
          _ ≤ b * 256 ^ as.length := Nat.mul_le_mul_right _ (by omega)
          _ = b * 256 ^ bs.length := by rw [hlen']
          _ ≤ b * 256 ^ bs.length + beNat bs := Nat.le_add_right _ _
      · by_cases h2 : b < a
        · rw [if_neg h1, if_pos h2]
          refine iff_of_false (by simp) (not_lt.mpr (le_of_lt ?_))
          calc b * 256 ^ bs.length + beNat bs
              < (b + 1) * 256 ^ bs.length := by nlinarith
            _ ≤ a * 256 ^ bs.length := Nat.mul_le_mul_right _ (by omega)
            _ = a * 256 ^ as.length := by rw [hlen']
            _ ≤ a * 256 ^ as.length + beNat as := Nat.le_add_right _ _
        · have hab : a = b := by omega
          subst hab
          rw [if_neg h1, if_neg h2, ih bs hlen' hxs' hys', hlen']
          exact (Nat.add_lt_add_iff_left).symm

/-- The running SHA-256 state stays 8 words long. -/
theorem sha256_foldl_length :
    ∀ (bs : List (List Nat)) (st : List Nat), st.length = 8 →
      (bs.foldl sha256Block st).length = 8 := by
  intro bs
  induction bs with
  | nil => intro st h; simpa using h
  | cons b rest ih =>
    intro st h
    simp only [List.foldl_cons]
    exact ih _ (by simp [sha256Block])

/-- Serializing the state quadruples its length. -/
theorem flatMap_u32ToBe_length (st : List Nat) :
    (st.flatMap u32ToBe).length = 4 * st.length := by
  induction st with
  | nil => simp
  | cons w ws ih => simp [u32ToBe, ih]; ring

/-- A SHA-256 digest is 32 bytes long. -/
theorem sha256_length (msg : List Nat) : (sha256 msg).length = 32 := by
  unfold sha256
  rw [flatMap_u32ToBe_length, sha256_foldl_length _ _ (by rfl)]

/-- Every byte of a SHA-256 digest is below 256. -/
theorem sha256_mem_lt (msg : List Nat) : ∀ b ∈ sha256 msg, b < 256 := by
  intro b hb
  unfold sha256 at hb
  obtain ⟨w, -, hw⟩ := List.mem_flatMap.mp hb
  simp only [u32ToBe, List.mem_cons, List.mem_singleton] at hw
  rcases hw with h | h | h | h | h
  all_goals first
    | (subst h; exact Nat.mod_lt _ (by omega))
    | cases h

/-- C3 (amended): for headers with exponent in `[3, 32]` the check never
panics and accepts exactly when the little-endian identity is numerically
below the target built from the full 24-bit mantissa `bits & 0x00FFFFFF`
(the source does not mask the mantissa's sign bit). -/
theorem validate_pow_iff_lt_target :
    ∀ hd : BlockHeader, hd.bits < 2 ^ 32 →
      3 ≤ hd.bits / 2 ^ 24 → hd.bits / 2 ^ 24 ≤ 32 →
      hd.validateProofOfWork ≠ none ∧
      (hd.validateProofOfWork = some true ↔
        beNat hd.hash.reverse <
          hd.bits % 2 ^ 24 * 256 ^ (hd.bits / 2 ^ 24 - 3)) := by
  intro hd hb h3 h32
  have he : hd.bits / 2 ^ 24 % 256 = hd.bits / 2 ^ 24 :=
    Nat.mod_eq_of_lt (by omega)
  have hc1 : ¬ (hd.bits / 2 ^ 24 % 256 < 3) := by omega
  have hc2 : ¬ (29 < hd.bits / 2 ^ 24 % 256 - 3) := by omega
  have hlen : hd.hash.reverse.length = 32 := by
    simp only [List.length_reverse, BlockHeader.hash, sha256d]
    exact sha256_length _
  have hhb : ∀ b ∈ hd.hash.reverse, b < 256 := fun b hbm =>
    sha256_mem_lt _ b (List.mem_reverse.mp hbm)
  have htlen :
      (List.replicate (29 - (hd.bits / 2 ^ 24 % 256 - 3)) 0 ++
        [hd.bits / 2 ^ 16 % 256, hd.bits / 256 % 256, hd.bits % 256] ++
        List.replicate (hd.bits / 2 ^ 24 % 256 - 3) 0).length = 32 := by
    simp only [List.length_append, List.length_replicate, List.length_cons,
      List.length_nil]
    omega
  have htb : ∀ b ∈ List.replicate (29 - (hd.bits / 2 ^ 24 % 256 - 3)) 0 ++
        [hd.bits / 2 ^ 16 % 256, hd.bits / 256 % 256, hd.bits % 256] ++
        List.replicate (hd.bits / 2 ^ 24 % 256 - 3) 0, b < 256 := by
    intro b hbm
    simp only [List.mem_append, List.mem_replicate, List.mem_cons,
      List.not_mem_nil, or_false] at hbm
    rcases hbm with (h' | h') | h'
    · omega
    · rcases h' with h' | h' | h' <;> omega
    · omega
  have hiff := powCompare_iff hd.hash.reverse
    (List.replicate (29 - (hd.bits / 2 ^ 24 % 256 - 3)) 0 ++
      [hd.bits / 2 ^ 16 % 256, hd.bits / 256 % 256, hd.bits % 256] ++
      List.replicate (hd.bits / 2 ^ 24 % 256 - 3) 0)
    (by rw [hlen, htlen]) hhb htb
  have htv : beNat
      (List.replicate (29 - (hd.bits / 2 ^ 24 % 256 - 3)) 0 ++
        [hd.bits / 2 ^ 16 % 256, hd.bits / 256 % 256, hd.bits % 256] ++
        List.replicate (hd.bits / 2 ^ 24 % 256 - 3) 0) =
      hd.bits % 2 ^ 24 * 256 ^ (hd.bits / 2 ^ 24 - 3) := by
    rw [beNat_append, beNat_append, beNat_replicate_zero, beNat_replicate_zero, he]
    have hm : beNat [hd.bits / 2 ^ 16 % 256, hd.bits / 256 % 256, hd.bits % 256] =
        hd.bits % 2 ^ 24 := by
      simp only [beNat, List.foldl_cons, List.foldl_nil]
      omega
    rw [hm]
    simp only [List.length_replicate]
    ring
  simp only [BlockHeader.validateProofOfWork]
  rw [if_neg hc1, if_neg hc2]
  refine ⟨Option.some_ne_none _, ?_⟩
  rw [Option.some_inj, hiff, htv]

/-- C3 witness: the amended statement instantiated at the concrete header
`c3Header` (exponent 32). -/
theorem validate_pow_iff_lt_target_witness :
    c3Header.validateProofOfWork ≠ none ∧
    (c3Header.validateProofOfWork = some true ↔
      beNat c3Header.hash.reverse <
        c3Header.bits % 2 ^ 24 * 256 ^ (c3Header.bits / 2 ^ 24 - 3)) :=
  validate_pow_iff_lt_target c3Header (by decide) (by decide) (by decide)

/-- C3 counterexample: `c3Header` has exponent 32 and mantissa `0xFF0000`
(sign bit set); the source accepts it, yet its little-endian identity is
not below the claim's target built from the masked mantissa
`bits & 0x007FFFFF` — the claimed equivalence fails on this header. -/
theorem validate_pow_mantissa_mask_counterexample :
    3 ≤ c3Header.bits / 2 ^ 24 ∧ c3Header.bits / 2 ^ 24 ≤ 32 ∧
    c3Header.validateProofOfWork = some true ∧
    ¬ (beNat c3Header.hash.reverse < specTargetNat c3Header.bits) := by
  refine ⟨by decide, by decide, by decide, by decide⟩

/-! ## C10: the proof-of-work check panics outside `3 ≤ exponent ≤ 32` -/

/-- Machine-width invariants a header read off the wire satisfies. -/
def HeaderWF (h : BlockHeader) : Prop :=
  h.version < 2 ^ 32 ∧ h.prevBlockHash.length = 32 ∧ h.merkleRootHash.length = 32 ∧
  h.timestamp < 2 ^ 32 ∧ h.bits < 2 ^ 32 ∧ h.nonce < 2 ^ 32

instance (h : BlockHeader) : Decidable (HeaderWF h) := by
  unfold HeaderWF; infer_instance

/-- Parsing the 80-byte serialization of a well-formed header restores it. -/
theorem parse_toBytes (hd : BlockHeader) (hw : HeaderWF hd) :
    BlockHeader.parse hd.toBytes = hd := by
  obtain ⟨v, pb, mr, ts, bits, nonce⟩ := hd
  obtain ⟨hv, hpb, hmr, hts, hbits, hnonce⟩ := hw
  simp only at hv hpb hmr hts hbits hnonce
  have hassoc : BlockHeader.toBytes ⟨v, pb, mr, ts, bits, nonce⟩ =
      u32ToLe v ++ (pb ++ (mr ++ (u32ToLe ts ++ (u32ToLe bits ++ u32ToLe nonce)))) := by
    simp [BlockHeader.toBytes, List.append_assoc]
  rw [hassoc]
  have d4 : (u32ToLe v ++ (pb ++ (mr ++ (u32ToLe ts ++ (u32ToLe bits ++ u32ToLe nonce))))).drop 4 =
      pb ++ (mr ++ (u32ToLe ts ++ (u32ToLe bits ++ u32ToLe nonce))) :=
    List.drop_left' rfl
  have d36 : (u32ToLe v ++ (pb ++ (mr ++ (u32ToLe ts ++ (u32ToLe bits ++ u32ToLe nonce))))).drop 36 =
      mr ++ (u32ToLe ts ++ (u32ToLe bits ++ u32ToLe nonce)) := by
    rw [show (36 : Nat) = 4 + 32 from rfl, ← List.drop_drop, d4]
    exact List.drop_left' hpb
  have d68 : (u32ToLe v ++ (pb ++ (mr ++ (u32ToLe ts ++ (u32ToLe bits ++ u32ToLe nonce))))).drop 68 =
      u32ToLe ts ++ (u32ToLe bits ++ u32ToLe nonce) := by
    rw [show (68 : Nat) = 36 + 32 from rfl, ← List.drop_drop, d36]
    exact List.drop_left' hmr
  have d72 : (u32ToLe v ++ (pb ++ (mr ++ (u32ToLe ts ++ (u32ToLe bits ++ u32ToLe nonce))))).drop 72 =
      u32ToLe bits ++ u32ToLe nonce := by
    rw [show (72 : Nat) = 68 + 4 from rfl, ← List.drop_drop, d68]
    exact List.drop_left' rfl
  have d76 : (u32ToLe v ++ (pb ++ (mr ++ (u32ToLe ts ++ (u32ToLe bits ++ u32ToLe nonce))))).drop 76 =
      u32ToLe nonce := by
    rw [show (76 : Nat) = 72 + 4 from rfl, ← List.drop_drop, d72]
    exact List.drop_left' rfl
  simp only [BlockHeader.parse, BlockHeader.mk.injEq]
  refine ⟨?_, ?_, ?_, ?_, ?_, ?_⟩
  · rw [List.take_left' (show (u32ToLe v).length = 4 from rfl)]
    exact leToU32_u32ToLe hv
  · rw [d4]; exact List.take_left' hpb
  · rw [d36]; exact List.take_left' hmr
  · rw [d68, List.take_left' (show (u32ToLe ts).length = 4 from rfl)]
    exact leToU32_u32ToLe hts
  · rw [d72, List.take_left' (show (u32ToLe bits).length = 4 from rfl)]
    exact leToU32_u32ToLe hbits
  · rw [d76, show (u32ToLe nonce).take 4 = u32ToLe nonce from rfl]
    exact leToU32_u32ToLe hnonce

/-- A well-formed header serializes to exactly 80 bytes. -/
theorem toBytes_length (hd : BlockHeader) (hw : HeaderWF hd) :
    hd.toBytes.length = 80 := by
  simp [BlockHeader.toBytes, u32ToLe, hw.2.1, hw.2.2.1]

/-- C10: for every header whose compact-target exponent lies outside
`[3, 32]`, `validate_proof_of_work` hits an unsigned-subtraction underflow
(a panic, not `false` or an error), and the 80 wire bytes of such a header
drive `BlockHeader::read_from` — the network parsing path — into that
panic. -/
theorem validate_pow_panics_outside_exponent_range :
    ∀ hd : BlockHeader, HeaderWF hd →
      (hd.bits / 2 ^ 24 < 3 ∨ 32 < hd.bits / 2 ^ 24) →
      hd.validateProofOfWork = none ∧ BlockHeader.readFrom hd.toBytes = none := by
  intro hd hw hrange
  have hb : hd.bits < 2 ^ 32 := hw.2.2.2.2.1
  have he : hd.bits / 2 ^ 24 % 256 = hd.bits / 2 ^ 24 :=
    Nat.mod_eq_of_lt (by omega)
  have hval : hd.validateProofOfWork = none := by
    unfold BlockHeader.validateProofOfWork
    rcases hrange with h | h
    · rw [if_pos (by omega)]
    · rw [if_neg (by omega), if_pos (by omega)]
  refine ⟨hval, ?_⟩
  unfold BlockHeader.readFrom
  rw [toBytes_length hd hw, if_neg (by omega), parse_toBytes hd hw]
  simp only [hval]

/-- A header with `bits = 0` (exponent 0). -/
def c10Header : BlockHeader :=
  { version := 1, prevBlockHash := List.replicate 32 0,
    merkleRootHash := List.replicate 32 0, timestamp := 0,
    bits := 0, nonce := 0 }

/-- C10 witness: the panic at the concrete header with `bits = 0`. -/
theorem validate_pow_panics_witness :
    c10Header.validateProofOfWork = none ∧
      BlockHeader.readFrom c10Header.toBytes = none :=
  validate_pow_panics_outside_exponent_range c10Header (by decide)
    (Or.inl (by decide))

/-! ## C7: packed chain-file round trip -/

/-- Machine-width invariants of a chain block plus the absence of attached
transactions (header-only chains). -/
def BlockWF (b : Block) : Prop :=
  b.version < 2 ^ 32 ∧ b.merkleRootHash.length = 32 ∧ b.timestamp < 2 ^ 32 ∧
  b.bits < 2 ^ 32 ∧ b.nonce < 2 ^ 32 ∧ b.txs = none

instance (b : Block) : Decidable (BlockWF b) := by
  unfold BlockWF; infer_instance

/-- Chains built from the genesis chain by successful (well-formed) header
pushes. -/
inductive Reachable : Blockchain.Chain → Prop
  | base : Reachable Blockchain.newChain
  | step (h : BlockHeader) (c : Blockchain.Chain) (hw : HeaderWF h)
      (hr : Reachable c) : Reachable ((Blockchain.push h c).getD c)

/-- A reachable chain is nonempty and all its blocks are well-formed. -/
theorem reachable_facts : ∀ c, Reachable c → c ≠ [] ∧ ∀ b ∈ c, BlockWF b := by
  intro c hr
  induction hr with
  | base =>
    refine ⟨by simp [Blockchain.newChain], ?_⟩
    intro b hb
    simp only [Blockchain.newChain, List.mem_singleton] at hb
    subst hb
    decide
  | step h c hw hr ih =>
    obtain ⟨hne, hwf⟩ := ih
    obtain ⟨tip, rest, rfl⟩ : ∃ tip rest, c = tip :: rest := by
      cases c with
      | nil => exact absurd rfl hne
      | cons tip rest => exact ⟨tip, rest, rfl⟩
    by_cases hp : tip.hash = h.prevBlockHash
    · have : (Blockchain.push h (tip :: rest)).getD (tip :: rest) =
          Block.fromBlockHeader h :: tip :: rest := by
        simp [Blockchain.push, Blockchain.pushBlock, hp]
      rw [this]
      refine ⟨by simp, ?_⟩
      intro b hb
      rcases List.mem_cons.mp hb with hb | hb
      · subst hb
        exact ⟨hw.1, hw.2.2.1, hw.2.2.2.1, hw.2.2.2.2.1, hw.2.2.2.2.2, rfl⟩
      · exact hwf b hb
    · have : (Blockchain.push h (tip :: rest)).getD (tip :: rest) = tip :: rest := by
        simp [Blockchain.push, Blockchain.pushBlock, hp]
      rw [this]
      exact ⟨hne, hwf⟩

/-- A 48-byte entry really is 48 bytes. -/
theorem toBytes48_length (b : Block) (hmr : b.merkleRootHash.length = 32) :
    b.toBytes48.length = 48 := by
  simp [Block.toBytes48, u32ToLe, hmr]

/-- Appending a block to a nonempty chain appends its 48-byte entry to the
file image. -/
theorem saveToFile_cons (b : Block) (c : Blockchain.Chain) (hc : c ≠ []) :
    Blockchain.saveToFile (b :: c) = Blockchain.saveToFile c ++ b.toBytes48 := by
  have h1 : 1 ≤ c.reverse.length := by
    cases c with
    | nil => exact absurd rfl hc
    | cons x xs => simp
  simp only [Blockchain.saveToFile, List.reverse_cons,
    List.drop_append_of_le_length h1, List.map_append, List.flatten_append,
    List.map_cons, List.map_nil, List.flatten_cons, List.flatten_nil,
    List.append_nil]

/-- The file image of a reachable chain holds one 48-byte entry per
non-genesis block. -/
theorem saveToFile_length : ∀ c, Reachable c →
    (Blockchain.saveToFile c).length = 48 * (c.length - 1) := by
  intro c hr
  induction hr with
  | base => rfl
  | step h c hw hr ih =>
    obtain ⟨hne, -⟩ := reachable_facts c hr
    obtain ⟨tip, rest, rfl⟩ : ∃ tip rest, c = tip :: rest := by
      cases c with
      | nil => exact absurd rfl hne
      | cons tip rest => exact ⟨tip, rest, rfl⟩
    by_cases hp : tip.hash = h.prevBlockHash
    · have hc' : (Blockchain.push h (tip :: rest)).getD (tip :: rest) =
          Block.fromBlockHeader h :: tip :: rest := by
        simp [Blockchain.push, Blockchain.pushBlock, hp]
      rw [hc', saveToFile_cons _ _ (by simp),
        List.length_append, ih,
        toBytes48_length _ (by simpa [Block.fromBlockHeader] using hw.2.2.1)]
      simp only [List.length_cons]
      omega
    · have hc' : (Blockchain.push h (tip :: rest)).getD (tip :: rest) = tip :: rest := by
        simp [Blockchain.push, Blockchain.pushBlock, hp]
      rw [hc', ih]

/-- Reading the 48-byte entry of a pushed header against its parent hash
reconstructs the very block the push appended. -/
theorem fromBytes_toBytes48_header (h : BlockHeader) (hw : HeaderWF h) :
    Block.fromBytes (Block.fromBlockHeader h).toBytes48 h.prevBlockHash =
      Block.fromBlockHeader h := by
  obtain ⟨v, pb, mr, ts, bits, nonce⟩ := h
  obtain ⟨hv, hpb, hmr, hts, hbits, hnonce⟩ := hw
  simp only at hv hpb hmr hts hbits hnonce
  have hassoc : (Block.fromBlockHeader ⟨v, pb, mr, ts, bits, nonce⟩).toBytes48 =
      u32ToLe v ++ (mr ++ (u32ToLe ts ++ (u32ToLe bits ++ u32ToLe nonce))) := by
    simp [Block.toBytes48, Block.fromBlockHeader, List.append_assoc]
  rw [hassoc]
  have d4 : (u32ToLe v ++ (mr ++ (u32ToLe ts ++ (u32ToLe bits ++ u32ToLe nonce)))).drop 4 =
      mr ++ (u32ToLe ts ++ (u32ToLe bits ++ u32ToLe nonce)) :=
    List.drop_left' rfl
  have d36 : (u32ToLe v ++ (mr ++ (u32ToLe ts ++ (u32ToLe bits ++ u32ToLe nonce)))).drop 36 =
      u32ToLe ts ++ (u32ToLe bits ++ u32ToLe nonce) := by
    rw [show (36 : Nat) = 4 + 32 from rfl, ← List.drop_drop, d4]
    exact List.drop_left' hmr
  have d40 : (u32ToLe v ++ (mr ++ (u32ToLe ts ++ (u32ToLe bits ++ u32ToLe nonce)))).drop 40 =
      u32ToLe bits ++ u32ToLe nonce := by
    rw [show (40 : Nat) = 36 + 4 from rfl, ← List.drop_drop, d36]
    exact List.drop_left' rfl
  have d44 : (u32ToLe v ++ (mr ++ (u32ToLe ts ++ (u32ToLe bits ++ u32ToLe nonce)))).drop 44 =
      u32ToLe nonce := by
    rw [show (44 : Nat) = 40 + 4 from rfl, ← List.drop_drop, d40]
    exact List.drop_left' rfl
  simp only [Block.fromBytes, Block.fromBlockHeader, Block.mk.injEq]
  refine ⟨?_, ?_, ?_, ?_, ?_, ?_, trivial⟩
  · rw [List.take_left' (show (u32ToLe v).length = 4 from rfl)]
    exact leToU32_u32ToLe hv
  · -- the recomputed identity hashes the same 80 bytes as the header
    rw [List.take_left' (show (u32ToLe v).length = 4 from rfl), d4]
    show sha256d _ = BlockHeader.hash _
    unfold BlockHeader.hash
    congr 1
    simp [BlockHeader.toBytes, List.append_assoc]
  · rw [d4]; exact List.take_left' hmr
  · rw [d36, List.take_left' (show (u32ToLe ts).length = 4 from rfl)]
    exact leToU32_u32ToLe hts
  · rw [d40, List.take_left' (show (u32ToLe bits).length = 4 from rfl)]
    exact leToU32_u32ToLe hbits
  · rw [d44, show (u32ToLe nonce).take 4 = u32ToLe nonce from rfl]
    exact leToU32_u32ToLe hnonce

/-- The read loop on an empty stream returns the chain unchanged. -/
theorem readLoop_nil (f : Nat) (chain : Blockchain.Chain) (lh : List Nat) :
    Blockchain.readLoop f [] chain lh = some chain := by
  cases f <;> rfl

/-- The read loop is insensitive to the fuel once the fuel dominates the
stream length. -/
theorem readLoop_fuel_congr :
    ∀ (f g : Nat) (bytes : List Nat) (chain : Blockchain.Chain) (lh : List Nat),
      bytes.length < 48 * f → bytes.length < 48 * g →
      Blockchain.readLoop f bytes chain lh = Blockchain.readLoop g bytes chain lh := by
  intro f
  induction f with
  | zero => intro g bytes chain lh hf; omega
  | succ f ih =>
    intro g bytes chain lh hf hg
    cases g with
    | zero => omega
    | succ g =>
      by_cases hlen : bytes.length < 48
      · simp only [Blockchain.readLoop, if_pos hlen]
      · simp only [Blockchain.readLoop, if_neg hlen]
        cases Blockchain.pushBlock (Block.fromBytes (bytes.take 48) lh) lh chain with
        | none => rfl
        | some chain' =>
          exact ih g (bytes.drop 48) chain' _ (by simp; omega) (by simp; omega)

/-- Replaying the file image of a reachable chain rebuilds exactly that
chain, leaving the loop positioned after it for any appended bytes. -/
theorem readLoop_save :
    ∀ c, Reachable c → ∀ (rest : List Nat) (f : Nat),
      (Blockchain.saveToFile c).length + rest.length < 48 * f →
      Blockchain.readLoop f (Blockchain.saveToFile c ++ rest)
          Blockchain.newChain genesisHash =
        Blockchain.readLoop (f - (c.length - 1)) rest c
          (c.headD genesisBlock).hash := by
  intro c hr
  induction hr with
  | base =>
    intro rest f hf
    show Blockchain.readLoop f rest _ _ = _
    rfl
  | step h c hw hr ih =>
    intro rest f hf
    obtain ⟨hne, hwf⟩ := reachable_facts c hr
    obtain ⟨tip, rest', rfl⟩ : ∃ tip rest', c = tip :: rest' := by
      cases c with
      | nil => exact absurd rfl hne
      | cons tip rest' => exact ⟨tip, rest', rfl⟩
    by_cases hp : tip.hash = h.prevBlockHash
    · have hc' : (Blockchain.push h (tip :: rest')).getD (tip :: rest') =
          Block.fromBlockHeader h :: tip :: rest' := by
        simp [Blockchain.push, Blockchain.pushBlock, hp]
      rw [hc'] at hf ⊢
      have hsv := saveToFile_cons (Block.fromBlockHeader h) (tip :: rest') (by simp)
      have hchunk : (Block.fromBlockHeader h).toBytes48.length = 48 :=
        toBytes48_length _ (by simpa [Block.fromBlockHeader] using hw.2.2.1)
      have hslen := saveToFile_length (tip :: rest') hr
      rw [hsv, List.append_assoc]
      have harg : (Blockchain.saveToFile (tip :: rest')).length +
          ((Block.fromBlockHeader h).toBytes48 ++ rest).length < 48 * f := by
        rw [hsv] at hf
        simp only [List.length_append] at hf ⊢
        omega
      rw [ih ((Block.fromBlockHeader h).toBytes48 ++ rest) f harg]
      have hfge : (tip :: rest').length - 1 < f := by
        rw [hsv] at hf
        simp only [List.length_append, hslen, hchunk] at hf
        simp only [List.length_cons] at hf ⊢
        omega
      obtain ⟨f', hf'⟩ : ∃ f', f - ((tip :: rest').length - 1) = f' + 1 := by
        refine ⟨f - (tip :: rest').length, ?_⟩
        simp only [List.length_cons] at hfge ⊢
        omega
      rw [hf']
      have hbig : ¬ ((Block.fromBlockHeader h).toBytes48 ++ rest).length < 48 := by
        simp [hchunk]
      simp only [Blockchain.readLoop, if_neg hbig]
      rw [List.take_left' hchunk, List.drop_left' hchunk]
      have hhead : ((tip :: rest' : Blockchain.Chain).headD genesisBlock).hash = tip.hash := rfl
      rw [hhead, hp, fromBytes_toBytes48_header h hw]
      have hpush : Blockchain.pushBlock (Block.fromBlockHeader h) h.prevBlockHash
          (tip :: rest') = some (Block.fromBlockHeader h :: tip :: rest') := by
        simp [Blockchain.pushBlock, hp]
      rw [hpush]
      have hfix : f' = f - ((Block.fromBlockHeader h :: tip :: rest').length - 1) := by
        simp only [List.length_cons] at hf' ⊢
        omega
      rw [hfix]
      rfl
    · have hc' : (Blockchain.push h (tip :: rest')).getD (tip :: rest') = tip :: rest' := by
        simp [Blockchain.push, Blockchain.pushBlock, hp]
      rw [hc'] at hf ⊢
      exact ih rest f hf

/-- C7: the packed chain file round-trips: for every chain built from
genesis by header pushes, the file image holds one 48-byte entry per
non-genesis block, and reading it back — rechaining `prev_hash` through
the recomputed double-SHA256 identities from the genesis identity —
reconstructs the chain exactly. -/
theorem chain_file_roundtrip :
    ∀ c, Reachable c →
      (Blockchain.saveToFile c).length = 48 * (c.length - 1) ∧
      Blockchain.readFromFile (Blockchain.saveToFile c) = some c := by
  intro c hr
  refine ⟨saveToFile_length c hr, ?_⟩
  unfold Blockchain.readFromFile
  have hlen := saveToFile_length c hr
  have h1 : (Blockchain.saveToFile c).length + ([] : List Nat).length <
      48 * ((Blockchain.saveToFile c).length + 1) := by
    simp
    omega
  have := readLoop_save c hr [] ((Blockchain.saveToFile c).length + 1) h1
  rw [List.append_nil] at this
  rw [this, readLoop_nil]

/-- C7 witness: the round trip at the two-block chain `chainA`. -/
theorem chain_file_roundtrip_witness :
    (Blockchain.saveToFile chainA).length = 48 * (chainA.length - 1) ∧
    Blockchain.readFromFile (Blockchain.saveToFile chainA) = some chainA :=
  chain_file_roundtrip chainA
    (Reachable.step hdrA Blockchain.newChain (by decide) Reachable.base)

/-! ## C1: two-phase UTXO append vs. one-at-a-time processing -/

/-- The removals one transaction performs (the body of `append`'s first
loop). -/
def remTx (m : UtxoMap) (tx : Tx) : UtxoMap :=
  tx.getInputs.foldl (fun a p => UtxoSet.removeInput a p.1 p.2) m

/-- The insertion one transaction performs (the body of `append`'s second
loop). -/
def insTx (m : UtxoMap) (tx : Tx) : UtxoMap :=
  mapInsert m tx.txId tx.txOut

/-- `append` is the removal fold followed by the insertion fold. -/
theorem append_eq_folds (txs : List Tx) (m : UtxoMap) :
    UtxoSet.append txs m = txs.foldl insTx (txs.foldl remTx m) := rfl

/-- The sequential spec interleaves the two per transaction. -/
theorem specSeqAppend_eq_folds (txs : List Tx) (m : UtxoMap) :
    specSeqAppend txs m = txs.foldl (fun acc tx => insTx (remTx acc tx) tx) m := rfl

/-- What one input removal does to the value stored at its key. -/
def removeStep (o : Option (List Output)) (idx : Nat) : Option (List Output) :=
  match o with
  | none => none
  | some outs =>
    match outs.findIdx? (fun o => o.index == idx) with
    | none => some outs
    | some i =>
      let outs' := outs.eraseIdx i
      if outs'.isEmpty then none else some outs'

/-- Lookup after `HashMap::insert`. -/
theorem mapLookup_insert (m : UtxoMap) (k : List Nat) (v : List Output) (k' : List Nat) :
    mapLookup (mapInsert m k v) k' = if k' = k then some v else mapLookup m k' := by
  induction m with
  | nil =>
    simp only [mapInsert, mapLookup]
    by_cases h : k' = k
    · rw [if_pos h.symm, if_pos h]
    · rw [if_neg (fun hh => h hh.symm), if_neg h]
  | cons e rest ih =>
    by_cases he : e.1 = k
    · simp only [mapInsert, if_pos he, mapLookup]
      by_cases hk : k' = k
      · rw [if_pos hk.symm, if_pos hk]
      · rw [if_neg (fun hh => hk hh.symm), if_neg hk,
          if_neg (fun hh : e.1 = k' => hk (hh.symm.trans he))]
    · simp only [mapInsert, if_neg he, mapLookup, ih]
      by_cases hek : e.1 = k'
      · have hk : ¬ k' = k := fun hh => he (hek.trans hh)
        rw [if_pos hek, if_neg hk, if_pos hek]
      · rw [if_neg hek, if_neg hek]

/-- Lookup after `HashMap::remove`. -/
theorem mapLookup_remove (m : UtxoMap) (k k' : List Nat) :
    mapLookup (mapRemove m k) k' = if k' = k then none else mapLookup m k' := by
  induction m with
  | nil =>
    simp only [mapRemove, mapLookup]
    by_cases h : k' = k
    · rw [if_pos h]
    · rw [if_neg h]
  | cons e rest ih =>
    by_cases he : e.1 = k
    · simp only [mapRemove, if_pos he, ih, mapLookup]
      by_cases hk : k' = k
      · rw [if_pos hk, if_pos hk]
      · rw [if_neg hk, if_neg hk,
          if_neg (fun hh : e.1 = k' => hk (hh.symm.trans he))]
    · simp only [mapRemove, if_neg he, mapLookup, ih]
      by_cases hek : e.1 = k'
      · have hk : ¬ k' = k := fun hh => he (hek.trans hh)
        rw [if_pos hek, if_neg hk, if_pos hek]
      · rw [if_neg hek, if_neg hek]

/-- Lookup after one input removal: only the input's key is touched, and
what happens there is `removeStep`. -/
theorem mapLookup_removeInput (m : UtxoMap) (h : List Nat) (i : Nat) (k : List Nat) :
    mapLookup (UtxoSet.removeInput m h i) k =
      if k = h then removeStep (mapLookup m h) i else mapLookup m k := by
  unfold UtxoSet.removeInput removeStep
  cases hm : mapLookup m h with
  | none => by_cases hk : k = h <;> simp [hk, hm]
  | some outs =>
    cases hidx : outs.findIdx? (fun o => o.index == i) with
    | none => by_cases hk : k = h <;> simp [hk, hm, hidx]
    | some j =>
      by_cases hemp : (outs.eraseIdx j).isEmpty
      · by_cases hk : k = h <;>
          simp [hk, hm, hidx, hemp, mapLookup_remove]
      · by_cases hk : k = h <;>
          simp [hk, hm, hidx, hemp, mapLookup_insert]

/-- Lookup through a fold of input removals: the value at `k` is obtained
by running `removeStep` over exactly the inputs that reference `k`. -/
theorem mapLookup_remFold (ins : List (List Nat × Nat)) :
    ∀ (m : UtxoMap) (k : List Nat),
      mapLookup (ins.foldl (fun a p => UtxoSet.removeInput a p.1 p.2) m) k =
        (ins.filter (fun p => p.1 == k)).foldl (fun st p => removeStep st p.2)
          (mapLookup m k) := by
  induction ins with
  | nil => intro m k; rfl
  | cons p ins' ih =>
    intro m k
    simp only [List.foldl_cons]
    rw [ih]
    by_cases hpk : p.1 = k
    · subst hpk
      simp only [List.filter_cons, beq_self_eq_true, if_true, List.foldl_cons]
      rw [mapLookup_removeInput, if_pos rfl]
    · have : (p.1 == k) = false := beq_eq_false_iff_ne.mpr hpk
      simp only [List.filter_cons, this, Bool.false_eq_true, if_false]
      rw [mapLookup_removeInput, if_neg (fun hh => hpk hh.symm)]

/-- The removal fold of a transaction list, flattened to its inputs. -/
theorem remFold_eq_flat (ts : List Tx) :
    ∀ M : UtxoMap,
      ts.foldl remTx M =
        (ts.flatMap Tx.getInputs).foldl (fun a p => UtxoSet.removeInput a p.1 p.2) M := by
  induction ts with
  | nil => intro M; rfl
  | cons t ts' ih =>
    intro M
    simp only [List.foldl_cons, List.flatMap_cons, List.foldl_append]
    exact ih _

/-- The insertion fold only depends on the lookups of its start map. -/
theorem insFold_congr (ts : List Tx) :
    ∀ (M M' : UtxoMap),
      (∀ k, mapLookup M k = mapLookup M' k) →
      ∀ k, mapLookup (ts.foldl insTx M) k = mapLookup (ts.foldl insTx M') k := by
  induction ts with
  | nil => intro M M' h k; exact h k
  | cons t ts' ih =>
    intro M M' h k
    simp only [List.foldl_cons]
    refine ih _ _ (fun k' => ?_) k
    rw [insTx, insTx, mapLookup_insert, mapLookup_insert, h k']

/-- Inserting a transaction whose identity no removal of the list
references commutes (pointwise) with the removal fold. -/
theorem insTx_commutes_remFold (t : Tx) (ts : List Tx) (M : UtxoMap)
    (hnoref : ∀ tx ∈ ts, ∀ p ∈ tx.getInputs, p.1 ≠ t.txId) :
    ∀ k, mapLookup (ts.foldl remTx (insTx M t)) k =
         mapLookup (insTx (ts.foldl remTx M) t) k := by
  intro k
  rw [remFold_eq_flat, remFold_eq_flat, insTx, insTx,
    mapLookup_remFold, mapLookup_insert, mapLookup_insert, mapLookup_remFold]
  by_cases hk : k = t.txId
  · have hfil : (ts.flatMap Tx.getInputs).filter (fun p => p.1 == k) = [] := by
      rw [List.filter_eq_nil_iff]
      intro p hp
      obtain ⟨tx, htx, hptx⟩ := List.mem_flatMap.mp hp
      simpa [hk] using hnoref tx htx p hptx
    rw [hfil]
    simp [hk]
  · rw [if_neg hk, if_neg hk]

/-- Pointwise, two-phase append agrees with sequential processing when no
input references an in-block identity. -/
theorem append_lookup_eq_seq :
    ∀ (txs : List Tx) (m : UtxoMap),
      (∀ tx ∈ txs, ∀ p ∈ tx.getInputs, ∀ u ∈ txs, p.1 ≠ u.txId) →
      ∀ k, mapLookup (UtxoSet.append txs m) k = mapLookup (specSeqAppend txs m) k := by
  intro txs
  induction txs with
  | nil => intro m _ k; rfl
  | cons t ts ih =>
    intro m hno k
    rw [append_eq_folds, specSeqAppend_eq_folds]
    simp only [List.foldl_cons]
    have hcomm := insTx_commutes_remFold t ts (remTx m t)
      (fun tx htx p hp =>
        hno tx (List.mem_cons_of_mem _ htx) p hp t (List.mem_cons_self _ _))
    rw [insFold_congr ts _ _ (fun k'' => (hcomm k'').symm) k]
    have hno' : ∀ tx ∈ ts, ∀ p ∈ tx.getInputs, ∀ u ∈ ts, p.1 ≠ u.txId :=
      fun tx htx p hp u hu =>
        hno tx (List.mem_cons_of_mem _ htx) p hp u (List.mem_cons_of_mem _ hu)
    rw [← append_eq_folds ts (insTx (remTx m t) t),
      ← specSeqAppend_eq_folds ts (insTx (remTx m t) t)]
    exact ih (insTx (remTx m t) t) hno' k

/-- A successful lookup pins the entry to the association list. -/
theorem mapLookup_mem :
    ∀ (m : UtxoMap) (k : List Nat) (v : List Output),
      mapLookup m k = some v → (k, v) ∈ m := by
  intro m
  induction m with
  | nil => intro k v h; cases h
  | cons e rest ih =>
    intro k v h
    by_cases he : e.1 = k
    · rw [mapLookup, if_pos he] at h
      cases h
      have hek : e = (k, e.2) := Prod.ext he rfl
      rw [← hek]
      exact List.mem_cons_self _ _
    · rw [mapLookup, if_neg he] at h
      exact List.mem_cons_of_mem _ (ih k v h)

/-- `removeStep` never manufactures an empty vector. -/
theorem removeStep_no_empty (o : Option (List Output)) (i : Nat)
    (h : ∀ w, o = some w → w ≠ []) :
    ∀ v, removeStep o i = some v → v ≠ [] := by
  intro v hv
  cases o with
  | none => simp [removeStep] at hv
  | some outs =>
    simp only [removeStep] at hv
    cases hidx : outs.findIdx? (fun o => o.index == i) with
    | none =>
      rw [hidx] at hv
      dsimp only at hv
      cases hv
      exact h _ rfl
    | some j =>
      rw [hidx] at hv
      dsimp only at hv
      by_cases hemp : (outs.eraseIdx j).isEmpty
      · rw [if_pos hemp] at hv; cases hv
      · rw [if_neg hemp] at hv
        cases hv
        intro hcon
        exact hemp (by simp [hcon])

/-- Folding `removeStep` preserves the no-empty-vector invariant. -/
theorem foldl_removeStep_no_empty :
    ∀ (l : List (List Nat × Nat)) (o : Option (List Output)),
      (∀ w, o = some w → w ≠ []) →
      ∀ v, l.foldl (fun st p => removeStep st p.2) o = some v → v ≠ [] := by
  intro l
  induction l with
  | nil => intro o h v hv; exact h v hv
  | cons p l' ih =>
    intro o h v hv
    simp only [List.foldl_cons] at hv
    exact ih _ (removeStep_no_empty o p.2 h) v hv

/-- Looking up after the insertion fold either finds some transaction's
output list or passes through to the start map. -/
theorem insFold_lookup_cases :
    ∀ (ts : List Tx) (M : UtxoMap) (k : List Nat) (v : List Output),
      mapLookup (ts.foldl insTx M) k = some v →
      (∃ tx ∈ ts, v = tx.txOut) ∨ mapLookup M k = some v := by
  intro ts
  induction ts with
  | nil => intro M k v hv; exact Or.inr hv
  | cons t ts' ih =>
    intro M k v hv
    simp only [List.foldl_cons] at hv
    rcases ih _ k v hv with h | h
    · obtain ⟨tx, htx, hvv⟩ := h
      exact Or.inl ⟨tx, List.mem_cons_of_mem _ htx, hvv⟩
    · simp only [insTx] at h
      rw [mapLookup_insert] at h
      by_cases hk : k = t.txId
      · rw [if_pos hk] at h
        cases h
        exact Or.inl ⟨t, List.mem_cons_self _ _, rfl⟩
      · rw [if_neg hk] at h
        exact Or.inr h

/-- After `append`, no key maps to an empty vector (given nonempty output
lists and a clean pre-state). -/
theorem append_no_empty (txs : List Tx) (m : UtxoMap)
    (hout : ∀ tx ∈ txs, tx.txOut ≠ [])
    (hpre : ∀ e ∈ m, e.2 ≠ []) :
    ∀ k v, mapLookup (UtxoSet.append txs m) k = some v → v ≠ [] := by
  intro k v hv
  rw [append_eq_folds] at hv
  rcases insFold_lookup_cases txs _ k v hv with h | h
  · obtain ⟨tx, htx, rfl⟩ := h
    exact hout tx htx
  · rw [remFold_eq_flat, mapLookup_remFold] at h
    refine foldl_removeStep_no_empty _ _ ?_ v h
    intro w hw
    exact hpre (k, w) (mapLookup_mem m k w hw)

/-- C1 (amended): the two-phase `UtxoSet::append` — all input removals
against the pre-block set first, then every transaction's outputs inserted
under its identity — agrees with one-at-a-time processing whenever no
input in the block references the identity of a transaction of the same
block; and when additionally every transaction has at least one output and
the pre-state has no empty entries, no key of the result maps to an empty
vector.  (With intra-block spends the two differ: see the
counterexample.) -/
theorem append_matches_sequential_without_intrablock_spends :
    ∀ (txs : List Tx) (m : UtxoMap),
      (∀ tx ∈ txs, ∀ p ∈ tx.getInputs, ∀ u ∈ txs, p.1 ≠ u.txId) →
      (∀ tx ∈ txs, tx.txOut ≠ []) →
      (∀ e ∈ m, e.2 ≠ []) →
      (∀ k, mapLookup (UtxoSet.append txs m) k = mapLookup (specSeqAppend txs m) k) ∧
      (∀ k v, mapLookup (UtxoSet.append txs m) k = some v → v ≠ []) :=
  fun txs m hno hout hpre =>
    ⟨append_lookup_eq_seq txs m hno, append_no_empty txs m hout hpre⟩

/-- A single-transaction block spending a pre-existing outpoint, for the
C1 witness. -/
def w1Tx : Tx :=
  { version := 1, txIn := [TxIn.new ⟨List.replicate 32 4, 0⟩ []],
    txOut := [⟨0, 5, .EMPTY⟩], lockTime := 0, txId := List.replicate 32 8 }

/-- The pre-state for the C1 witness: one entry under the spent key. -/
def w1Map : UtxoMap := [(List.replicate 32 4, [⟨0, 3, .EMPTY⟩])]

/-- C1 witness: the equivalence and no-empty-vector conclusions
instantiated at a concrete one-transaction block without intra-block
spends. -/
theorem append_matches_sequential_witness :
    mapLookup (UtxoSet.append [w1Tx] w1Map) (List.replicate 32 8) =
      mapLookup (specSeqAppend [w1Tx] w1Map) (List.replicate 32 8) ∧
    ([⟨0, 5, .EMPTY⟩] : List Output) ≠ [] :=
  ⟨(append_matches_sequential_without_intrablock_spends [w1Tx] w1Map
      (by decide) (by decide) (by decide)).1 (List.replicate 32 8),
   (append_matches_sequential_without_intrablock_spends [w1Tx] w1Map
      (by decide) (by decide) (by decide)).2 (List.replicate 32 8)
      [⟨0, 5, .EMPTY⟩] (by decide)⟩

/-- C1 counterexample: in the two-transaction block where `c1RawTx2`
spends output 0 of `c1RawTx1`, the source's two-phase `append` leaves
`c1RawTx1`'s spent output in the set, while one-at-a-time processing
removes it (and prunes the key): applying a block is not equivalent to
processing its transactions one at a time. -/
theorem append_not_sequential_counterexample :
    Txs.fromRawTxs [c1RawTx1, c1RawTx2] = some c1Txs ∧
    mapLookup (UtxoSet.append c1Txs []) (c1RawTx1.getTxId.getD []) =
      some [⟨0, 10, .SCRIPT []⟩] ∧
    mapLookup (specSeqAppend c1Txs []) (c1RawTx1.getTxId.getD []) = none := by
  refine ⟨by decide, by decide, by decide⟩

/-! ## C8: payment creation -/

/-- The total value of a selection list. -/
def valSum (l : List (List Nat × Output)) : Int :=
  (l.map fun p => p.2.value).sum

/-- Descending insertion permutes. -/
theorem insertDesc_perm (x : List Nat × Output) :
    ∀ l, (insertDescByValue x l).Perm (x :: l) := by
  intro l
  induction l with
  | nil => exact List.Perm.refl _
  | cons y ys ih =>
    by_cases h : y.2.value < x.2.value
    · simp only [insertDescByValue, if_pos h]
      exact List.Perm.refl _
    · simp only [insertDescByValue, if_neg h]
      exact (List.Perm.cons y ih).trans (List.Perm.swap x y ys)

/-- The descending sort permutes its input. -/
theorem sortDesc_perm (l : List (List Nat × Output)) :
    (sortDescByValue l).Perm l := by
  induction l with
  | nil => exact List.Perm.refl _
  | cons a l ih =>
    exact (insertDesc_perm a (sortDescByValue l)).trans (List.Perm.cons a ih)

/-- Descending insertion preserves descending sortedness. -/
theorem insertDesc_sorted (x : List Nat × Output) :
    ∀ l, List.Pairwise (fun a b => b.2.value ≤ a.2.value) l →
      List.Pairwise (fun a b => b.2.value ≤ a.2.value) (insertDescByValue x l) := by
  intro l
  induction l with
  | nil => intro _; simp [insertDescByValue]
  | cons y ys ih =>
    intro h
    rw [List.pairwise_cons] at h
    obtain ⟨hy, hys⟩ := h
    by_cases hlt : y.2.value < x.2.value
    · simp only [insertDescByValue, if_pos hlt]
      rw [List.pairwise_cons]
      refine ⟨?_, List.pairwise_cons.mpr ⟨hy, hys⟩⟩
      intro z hz
      rcases List.mem_cons.mp hz with hz | hz
      · subst hz; exact le_of_lt hlt
      · exact le_trans (hy z hz) (le_of_lt hlt)
    · simp only [insertDescByValue, if_neg hlt]
      rw [List.pairwise_cons]
      refine ⟨?_, ih hys⟩
      intro z hz
      rcases List.mem_cons.mp ((insertDesc_perm x ys).mem_iff.mp hz) with hz | hz
      · subst hz; exact not_lt.mp hlt
      · exact hy z hz

/-- The descending sort is sorted. -/
theorem sortDesc_sorted (l : List (List Nat × Output)) :
    List.Pairwise (fun a b => b.2.value ≤ a.2.value) (sortDescByValue l) := by
  induction l with
  | nil => simp [sortDescByValue]
  | cons a l ih => exact insertDesc_sorted a (sortDescByValue l) ih

/-- Nonnegative selections have nonnegative total value. -/
theorem valSum_nonneg (l : List (List Nat × Output))
    (h : ∀ p ∈ l, (0 : Int) ≤ p.2.value) : 0 ≤ valSum l := by
  refine List.sum_nonneg ?_
  intro x hx
  obtain ⟨p, hp, rfl⟩ := List.mem_map.mp hx
  exact h p hp

/-- When even the whole list cannot reach `amount`, the accumulation loop
takes everything. -/
theorem accumOuts_all (amount : Int) :
    ∀ (l : List (List Nat × Output)) (s : Int) (acc : List (List Nat × Output)),
      (∀ p ∈ l, (0 : Int) ≤ p.2.value) → s + valSum l < amount →
      accumOuts amount l s acc = (acc.reverse ++ l, s + valSum l) := by
  intro l
  induction l with
  | nil => intro s acc _ _; simp [accumOuts, valSum]
  | cons o rest ih =>
    intro s acc hnn hlt
    have hrest : (0 : Int) ≤ valSum rest :=
      valSum_nonneg rest fun p hp => hnn p (List.mem_cons_of_mem _ hp)
    have hvs : valSum (o :: rest) = o.2.value + valSum rest := by
      simp [valSum]
    have hno : ¬ amount ≤ s + o.2.value := by
      rw [hvs] at hlt
      omega
    simp only [accumOuts, if_neg hno]
    rw [ih (s + o.2.value) (o :: acc)
      (fun p hp => hnn p (List.mem_cons_of_mem _ hp)) (by rw [hvs] at hlt; omega)]
    rw [hvs]
    simp only [Prod.mk.injEq]
    constructor
    · simp
    · ring

/-- What the accumulation loop returns: a prefix of its input whose
partial sums stayed below `amount` until the last step. -/
theorem accumOuts_spec (amount : Int) :
    ∀ (l : List (List Nat × Output)) (s : Int) (acc sel : List (List Nat × Output))
      (sum : Int),
      accumOuts amount l s acc = (sel, sum) →
      ∃ k, k ≤ l.length ∧ sel = acc.reverse ++ l.take k ∧
        sum = s + valSum (l.take k) ∧
        (∀ j, j + 1 < k → s + valSum (l.take (j + 1)) < amount) ∧
        (k < l.length → amount ≤ sum) := by
  intro l
  induction l with
  | nil =>
    intro s acc sel sum h
    simp only [accumOuts] at h
    cases h
    exact ⟨0, by simp [valSum]⟩
  | cons o rest ih =>
    intro s acc sel sum h
    by_cases hstop : amount ≤ s + o.2.value
    · simp only [accumOuts, if_pos hstop] at h
      cases h
      refine ⟨1, by simp, by simp, ?_, ?_, fun _ => hstop⟩
      · show s + o.2.value = s + valSum [o]
        simp [valSum]
      · intro j hj; omega
    · simp only [accumOuts, if_neg hstop] at h
      obtain ⟨k', hk'len, hsel, hsum, hmin, hlast⟩ := ih (s + o.2.value) (o :: acc) sel sum h
      refine ⟨k' + 1, by simpa using hk'len, ?_, ?_, ?_, ?_⟩
      · rw [hsel]
        simp
      · rw [hsum]
        show _ = s + valSum (o :: rest.take k')
        simp only [valSum, List.map_cons, List.sum_cons]
        ring
      · intro j hj
        cases j with
        | zero =>
          show s + valSum (o :: rest.take 0) < amount
          simp only [valSum, List.take_zero, List.map_cons, List.map_nil,
            List.sum_cons, List.sum_nil]
          omega
        | succ j' =>
          have := hmin j' (by omega)
          show s + valSum (o :: rest.take (j' + 1)) < amount
          simp only [valSum, List.map_cons, List.sum_cons] at this ⊢
          omega
      · intro hlt
        simp only [List.length_cons] at hlt
        exact hlast (by omega)

/-- `get_outs_to_spend` errors exactly on insufficient nonnegative funds. -/
theorem getOutsToSpend_insufficient (utxo : UtxoMap) (pk : List Nat) (amount : Int)
    (hnn : ∀ p ∈ UtxoSet.byPkhash utxo pk, (0 : Int) ≤ p.2.value)
    (hlt : valSum (UtxoSet.byPkhash utxo pk) < amount) :
    getOutsToSpend utxo pk amount = .error "Insufficient balance" := by
  have hperm := sortDesc_perm (UtxoSet.byPkhash utxo pk)
  have hvs : valSum (sortDescByValue (UtxoSet.byPkhash utxo pk)) =
      valSum (UtxoSet.byPkhash utxo pk) := by
    unfold valSum
    exact (hperm.map fun p => p.2.value).sum_eq
  have hnn' : ∀ p ∈ sortDescByValue (UtxoSet.byPkhash utxo pk), (0 : Int) ≤ p.2.value :=
    fun p hp => hnn p (hperm.mem_iff.mp hp)
  simp only [getOutsToSpend]
  rw [accumOuts_all amount _ 0 [] hnn' (by rw [hvs]; omega)]
  rw [if_pos (by rw [hvs]; omega)]

/-- Decomposing a successful `get_outs_to_spend`: the selection is a
minimal sufficient prefix of the descending sort. -/
theorem getOutsToSpend_ok (utxo : UtxoMap) (pk : List Nat) (amount : Int)
    (sel : List (List Nat × Output)) (sum : Int)
    (h : getOutsToSpend utxo pk amount = .ok (sel, sum)) :
    ∃ k, k ≤ (sortDescByValue (UtxoSet.byPkhash utxo pk)).length ∧
      sel = (sortDescByValue (UtxoSet.byPkhash utxo pk)).take k ∧
      sum = valSum sel ∧ amount ≤ sum ∧
      ∀ j, j + 1 < k →
        valSum ((sortDescByValue (UtxoSet.byPkhash utxo pk)).take (j + 1)) < amount := by
  simp only [getOutsToSpend] at h
  cases hacc : accumOuts amount (sortDescByValue (UtxoSet.byPkhash utxo pk)) 0 [] with
  | mk sel₀ sum₀ =>
    rw [hacc] at h
    by_cases hguard : sum₀ < amount
    · rw [if_pos hguard] at h; cases h
    · rw [if_neg hguard] at h
      cases h
      obtain ⟨k, hk, hsel, hsum, hmin, -⟩ :=
        accumOuts_spec amount _ 0 [] sel₀ sum₀ hacc
      refine ⟨k, hk, by simpa using hsel, ?_, not_lt.mp hguard, ?_⟩
      · rw [hsum, hsel]
        simp
      · intro j hj
        have := hmin j hj
        omega

/-- Signing never touches the outputs. -/
theorem createRawTransaction_txOut (O : CryptoExt)
    (outs : List (List Nat × Output)) (txOut : List TxOut) (wif : String)
    (tx : RawTransaction) (h : createRawTransaction O outs txOut wif = some tx) :
    tx.txOut = txOut := by
  unfold createRawTransaction at h
  obtain ⟨priv, -, h⟩ := Option.bind_eq_some.mp h
  obtain ⟨sk, -, h⟩ := Option.bind_eq_some.mp h
  injection h with h'
  rw [← h']

/-- C8: `PayTo` payment creation, for nonnegative payer UTXOs: it fails
with the insufficient-balance error when the payer's total is below
`amount + fee`; the UTXO selection is a minimal sufficient prefix of the
payer's outputs sorted by descending value; a successfully built
transaction has exactly the pay-to-target output plus a change output to
the payer when the selection overshoots (and none when exact), and passed
§4.6 validation; a built transaction failing validation is rejected as
invalid.  (The embedding is pure, so the failing paths trivially leave
every state unchanged.) -/
theorem create_transaction_spec :
    ∀ (O : CryptoExt) (utxo : UtxoMap) (payerWif payeeAddress : String)
      (amount fee : Int) (pk : List Nat),
      wifToPkhash O payerWif = some (.ok pk) →
      (∀ p ∈ UtxoSet.byPkhash utxo pk, (0 : Int) ≤ p.2.value) →
      (valSum (UtxoSet.byPkhash utxo pk) < amount + fee →
        createTransactionNode O utxo payerWif payeeAddress amount fee =
          some (.error "Insufficient balance")) ∧
      (List.Pairwise (fun a b => b.2.value ≤ a.2.value)
          (sortDescByValue (UtxoSet.byPkhash utxo pk)) ∧
        (sortDescByValue (UtxoSet.byPkhash utxo pk)).Perm (UtxoSet.byPkhash utxo pk)) ∧
      (∀ sel sum, getOutsToSpend utxo pk (amount + fee) = .ok (sel, sum) →
        ∃ k, k ≤ (sortDescByValue (UtxoSet.byPkhash utxo pk)).length ∧
          sel = (sortDescByValue (UtxoSet.byPkhash utxo pk)).take k ∧
          sum = valSum sel ∧ amount + fee ≤ sum ∧
          ∀ j, j + 1 < k →
            valSum ((sortDescByValue (UtxoSet.byPkhash utxo pk)).take (j + 1)) <
              amount + fee) ∧
      (∀ tx, createTransactionNode O utxo payerWif payeeAddress amount fee =
          some (.ok tx) →
        ∃ payee sel sum,
          PubKeyScript.fromAddress O payeeAddress = some (.ok payee) ∧
          getOutsToSpend utxo pk (amount + fee) = .ok (sel, sum) ∧
          tx.txOut = (if amount + fee < sum
                      then [TxOut.new amount payee.toVec,
                            TxOut.new (sum - amount - fee)
                              (PubKeyScript.P2PKH pk).toVec]
                      else [TxOut.new amount payee.toVec]) ∧
          Blockchain.isValidTx O utxo tx = some true) ∧
      (∀ sel sum payee tx,
        getOutsToSpend utxo pk (amount + fee) = .ok (sel, sum) →
        PubKeyScript.fromAddress O payeeAddress = some (.ok payee) →
        createRawTransaction O sel
          ([TxOut.new amount payee.toVec] ++
            (if amount + fee < sum
             then [TxOut.new (sum - amount - fee) (PubKeyScript.P2PKH pk).toVec]
             else [])) payerWif = some tx →
        Blockchain.isValidTx O utxo tx = some false →
        createTransactionNode O utxo payerWif payeeAddress amount fee =
          some (.error "Transaction is not valid")) := by
  intro O utxo payerWif payeeAddress amount fee pk hwif hnn
  refine ⟨?_, ⟨sortDesc_sorted _, sortDesc_perm _⟩, ?_, ?_, ?_⟩
  · intro hlt
    unfold createTransactionNode
    rw [hwif]
    dsimp only
    rw [getOutsToSpend_insufficient utxo pk (amount + fee) hnn hlt]
  · intro sel sum hok
    exact getOutsToSpend_ok utxo pk (amount + fee) sel sum hok
  · intro tx hok
    unfold createTransactionNode at hok
    rw [hwif] at hok
    dsimp only at hok
    cases hg : getOutsToSpend utxo pk (amount + fee) with
    | error e => rw [hg] at hok; simp at hok
    | ok pr =>
      obtain ⟨sel, sum⟩ := pr
      rw [hg] at hok
      dsimp only at hok
      cases ha : PubKeyScript.fromAddress O payeeAddress with
      | none => rw [ha] at hok; simp at hok
      | some res =>
        cases res with
        | error e => rw [ha] at hok; simp at hok
        | ok payee =>
          rw [ha] at hok
          dsimp only at hok
          cases hc : createRawTransaction O sel
              ([TxOut.new amount payee.toVec] ++
                (if amount + fee < sum
                 then [TxOut.new (sum - amount - fee) (PubKeyScript.P2PKH pk).toVec]
                 else [])) payerWif with
          | none => rw [hc] at hok; simp at hok
          | some tx' =>
            rw [hc] at hok
            dsimp only at hok
            cases hv : Blockchain.isValidTx O utxo tx' with
            | none => rw [hv] at hok; simp at hok
            | some b =>
              cases b with
              | false => rw [hv] at hok; simp at hok
              | true =>
                rw [hv] at hok
                dsimp only at hok
                have htx : tx' = tx := by simpa using hok
                subst htx
                refine ⟨payee, sel, sum, rfl, rfl, ?_, hv⟩
                rw [createRawTransaction_txOut O sel _ payerWif tx' hc]
                by_cases hch : amount + fee < sum
                · rw [if_pos hch, if_pos hch]
                  rfl
                · rw [if_neg hch, if_neg hch]
                  rfl
  · intro sel sum payee tx hg ha hc hv
    unfold createTransactionNode
    rw [hwif]
    dsimp only
    rw [hg]
    dsimp only
    rw [ha]
    dsimp only
    rw [hc]
    dsimp only
    rw [hv]

/-- C8 witness: the insufficient-balance branch at a concrete command with
an empty UTXO snapshot. -/
theorem create_transaction_spec_witness :
    createTransactionNode trivOracle [] "WIF" "A" 4 1 =
      some (.error "Insufficient balance") :=
  (create_transaction_spec trivOracle [] "WIF" "A" 4 1 (List.replicate 20 7)
      (by rfl) (by decide)).1 (by decide)

end BtcNode
